import Mathlib

/-!
# logview: the tail reader, the line highlighter and the configuration

A shallow embedding of `src/logview.cpp`: `printColorfulLine`, `printLastLines`
and `start`, then `parseColor`, `parseKeyValueOfConfig`, `parseGroup`,
`readConfig` and the option handling and checks of `main`.

Conventions of the embedding.

* A C string is the list of its characters before the terminating NUL, and a
  file is the list of its bytes; log files, markers and configuration values
  are text, so no NUL occurs inside them and `strlen` is `List.length`.
* A `FILE*` opened for reading is the list of bytes that have not been read
  yet, together with the end-of-file indicator.
* `int` and `long` quantities that count bytes or lines are natural numbers:
  files are taken to be shorter than `2^31` bytes, where both C types hold the
  exact value.  Quantities that the program parses from text (`Config`) are
  integers, since they may be negative.
* `std::atoi` is `(int) strtol(..)` with a 64-bit `long`, as in the GNU C
  library; the conversion to `int` is written out modulo `2^32`.
* Undefined behaviour (a read outside a buffer, a copy with a negative count)
  is `none`; a loop that has not finished within the given fuel is `none` as
  well, and the theorems say how much fuel is enough.
* `printColorfulLine` is given twice.  `trimLen`, `builtText` and
  `printColorfulLine` follow the rules of C, under which the read of `line[-1]`
  by the trimming loop has no result.  `runTrimLen`, `runBuiltText` and
  `runPrintColorfulLine` are the same code as it runs inside the readers, where
  `line` is a buffer from `new char[..]` and the byte in front of it is
  `frontByte`.  The readers run the second form on every buffer they pass on,
  and a call without result ends the run of the reader (`none`).
-/

namespace Logview

/-! ## Data model (`Color`, `Level`, `Config`) -/

/-- The struct `Color`: three `int` channels. -/
structure Color where
  r : Int := 0
  g : Int := 0
  b : Int := 0
  deriving DecidableEq, Repr

/-- The struct `Level`: section name of the configuration file, marker text
searched for in a log line, colour. -/
structure Level where
  groupName : List Char
  textInLogFile : List Char
  color : Color
  deriving DecidableEq, Repr

/-- The struct `Config` with the defaults of its member initialisers; `levels`
is the array `Level levels[6]`. -/
structure Config where
  detectInterval : Int := 10
  lineMaxLength : Int := 500
  linesOfLast : Int := 20
  highlightLine : Bool := false
  showLineNumber : Bool := false
  lineNumberColor : Color := ⟨175, 95, 0⟩
  levels : List Level :=
    [ ⟨"trace".toList, "[trace]".toList, ⟨80, 220, 44⟩⟩,
      ⟨"debug".toList, "[debug]".toList, ⟨90, 220, 200⟩⟩,
      ⟨"info".toList, "[info]".toList, ⟨50, 150, 240⟩⟩,
      ⟨"warning".toList, "[warning]".toList, ⟨220, 240, 25⟩⟩,
      ⟨"error".toList, "[error]".toList, ⟨233, 20, 20⟩⟩,
      ⟨"critical".toList, "[critical]".toList, ⟨240, 20, 200⟩⟩ ]
  deriving DecidableEq, Repr

/-- The global `g_config` as it is before any option or file is read. -/
def defaultConfig : Config := {}

/-! ## The C library functions the program calls -/

/-- The character loop of `fgets`: at most `k` characters are stored; reading
stops after a newline, when `k` characters are stored, or at end of file.  The
end-of-file indicator is set only when a read is attempted with no byte left.
Result: the characters stored, the unread rest of the stream, the indicator. -/
def fgetsAux : Nat → List Char → List Char × List Char × Bool
  | 0, rest => ([], rest, false)
  | _ + 1, [] => ([], [], true)
  | k + 1, c :: cs =>
    if c = '\n' then ([c], cs, false)
    else
      let r := fgetsAux k cs
      (c :: r.1, r.2.1, r.2.2)

/-- The call `fgets(buf, n, fp)`: it stores at most `n - 1` characters. -/
def fgets (n : Int) (rest : List Char) : List Char × List Char × Bool :=
  fgetsAux (n - 1).toNat rest

/-- The call `strstr(hay, needle)`: offset of the first occurrence of `needle`
in `hay`, `none` for the null pointer. -/
def strstr : List Char → List Char → Option Nat
  | [], needle => if needle = [] then some 0 else none
  | c :: cs, needle =>
    if needle.isPrefixOf (c :: cs) then some 0
    else (strstr cs needle).map (· + 1)

/-- The conversion `%d` of `printf` for an `int`. -/
def fmtInt (i : Int) : List Char :=
  if i < 0 then '-' :: (Nat.repr i.natAbs).toList else (Nat.repr i.toNat).toList

/-! ## `printColorfulLine` -/

/-- The output of `sprintf(.., "\033[38;2;%d;%d;%dm", r, g, b)`. -/
def colorStart (c : Color) : List Char :=
  "\x1b[38;2;".toList ++ fmtInt c.r ++ [';'] ++ fmtInt c.g ++ [';'] ++ fmtInt c.b ++ ['m']

/-- The output of `sprintf(.., "\033[0m")`. -/
def colorReset : List Char := "\x1b[0m".toList

/-- The read `line[i]` of a C string: the characters, then the terminating
NUL; an index past the NUL is outside the string. -/
def charAt (line : List Char) (i : Nat) : Option Char :=
  if h : i < line.length then some (line.get ⟨i, h⟩)
  else if i = line.length then some (Char.ofNat 0)
  else none

/-- The loop `while (line[len-1] == '\n' || line[len-1] == '\r') --len;`.
The loop has no test on `len`: once `len` is 0 it reads `line[-1]`, the byte
in front of the buffer, which is outside the string (`none`). -/
def trimLen (line : List Char) : Nat → Option Nat
  | 0 => none
  | k + 1 =>
    match charAt line k with
    | none => none
    | some c => if c = '\n' ∨ c = '\r' then trimLen line k else some (k + 1)

/-- The `for` loop over `g_config.levels`: the first level, in array order,
for which `strstr(line, level.textInLogFile.c_str())` is not null, with the
offset `highlightStart - line`. -/
def findLevel : List Level → List Char → Option (Level × Nat)
  | [], _ => none
  | level :: rest, line =>
    match strstr line level.textInLogFile with
    | some pos => some (level, pos)
    | none => findLevel rest line

/-- The content of `lineBuff` when `lineBuff[lineBuffOffset] = 0` is reached,
for the trimmed length `len`.  The buffer has `len + 40` bytes; a write past
them, and the `strncpy` of the keyword branch with a negative `lenLeft`, are
undefined (`none`). -/
def lineBuffOf (cfg : Config) (line : List Char) (len : Nat) : Option (List Char) :=
  let text : Option (List Char) :=
    match findLevel cfg.levels line with
    | none => some (line.take len)
    | some (level, lenBeforeHighlight) =>
      if cfg.highlightLine then
        some (colorStart level.color ++ line.take len ++ colorReset)
      else
        let lineOffset := lenBeforeHighlight + level.textInLogFile.length
        if len < lineOffset then none
        else
          some (line.take lenBeforeHighlight ++ colorStart level.color
            ++ level.textInLogFile ++ colorReset
            ++ (line.drop lineOffset).take (len - lineOffset))
  match text with
  | none => none
  | some t => if t.length + 1 ≤ len + 40 then some t else none

/-- The text that `printColorfulLine(line, strlen(line), ..)` builds in
`lineBuff`: trimming first, then the highlighting. -/
def builtText (cfg : Config) (line : List Char) : Option (List Char) :=
  match trimLen line line.length with
  | none => none
  | some len => lineBuffOf cfg line len

/-- The function `printColorfulLine(line, len, lineNumber)`: the bytes written
to standard output. -/
def printColorfulLine (cfg : Config) (line : List Char) (len : Nat) (lineNumber : Nat) :
    Option (List Char) :=
  match trimLen line len with
  | none => none
  | some len1 =>
    match lineBuffOf cfg line len1 with
    | none => none
    | some buff =>
      let number : List Char :=
        if cfg.showLineNumber then
          colorStart cfg.lineNumberColor ++ (Nat.repr lineNumber).toList ++ colorReset ++ [' ']
        else []
      some (number ++ buff ++ ['\n'])

/-! ## `printColorfulLine` as it runs on a buffer of the readers -/

/-- The byte that the trimming loop finds at `line[-1]` when `line` is a buffer
of the readers.  Both readers obtain the buffer from `new char[lineMaxLength + 1]`;
in front of it the allocator of the GNU C library keeps the size of the block,
and the highest byte of that size, which is the byte at `line[-1]`, is 0 for
every block of this size.  The read is outside the array all the same: see
`trimLen` and `trimReads`. -/
def frontByte : Char := Char.ofNat 0

/-- The loop `while (line[len-1] == '\n' || line[len-1] == '\r') --len;` as it
runs on a buffer of the readers: with `len = 0` it reads `frontByte`. -/
def runTrimLen (line : List Char) : Nat → Option Nat
  | 0 => if frontByte = '\n' ∨ frontByte = '\r' then none else some 0
  | k + 1 =>
    match charAt line k with
    | none => none
    | some c => if c = '\n' ∨ c = '\r' then runTrimLen line k else some (k + 1)

/-- The text that `printColorfulLine(line, strlen(line), ..)` builds in
`lineBuff` when it runs on a buffer of the readers. -/
def runBuiltText (cfg : Config) (line : List Char) : Option (List Char) :=
  match runTrimLen line line.length with
  | none => none
  | some len => lineBuffOf cfg line len

/-- The output of the `printf` of the line number in `printColorfulLine`,
empty when `showLineNumber` is off. -/
def linePrefix (cfg : Config) (lineNumber : Nat) : List Char :=
  if cfg.showLineNumber then
    colorStart cfg.lineNumberColor ++ (Nat.repr lineNumber).toList ++ colorReset ++ [' ']
  else []

/-- The function `printColorfulLine(line, len, lineNumber)` as it runs on a
buffer of the readers: the bytes written to standard output, `none` when the
call has no result (a `strncpy` with a negative count, which ends the process,
or a write past `lineBuff`). -/
def runPrintColorfulLine (cfg : Config) (line : List Char) (len : Nat) (lineNumber : Nat) :
    Option (List Char) :=
  match runTrimLen line len with
  | none => none
  | some len1 =>
    match lineBuffOf cfg line len1 with
    | none => none
    | some buff => some (linePrefix cfg lineNumber ++ buff ++ ['\n'])

/-! ## The readers: `printLastLines` and the loop of `start` -/

/-- One call `printColorfulLine(line, strlen(line), number)` made by a reader:
the buffer that `fgets` filled (terminator included) and the line number. -/
structure Emit where
  line : List Char
  number : Nat
  deriving DecidableEq, Repr

/-- The calls `printColorfulLine(line, strlen(line), number)` for the records
`calls`, run in order: the bytes written to standard output, `none` when one
of the calls has no result. -/
def runCalls (cfg : Config) : List Emit → Option (List Char)
  | [] => some []
  | e :: es =>
    match runPrintColorfulLine cfg e.line e.line.length e.number with
    | none => none
    | some out =>
      match runCalls cfg es with
      | none => none
      | some more => some (out ++ more)

/-- The `while (!feof(g_fp))` loop of `printLastLines(lines)`: `window` is
`lineBuffList`, `num` is `g_curr_line_num`.  Each round reads one buffer; if
the end-of-file indicator is set by that read the loop ends, otherwise the
buffer is appended with the next number and, when the counter exceeds `lines`,
the front of the list is dropped. -/
def lastLinesLoop (n : Int) (lines : Int) :
    Nat → List Char → Nat → List Emit → Option (List Emit × Nat)
  | 0, _, _, _ => none
  | fuel + 1, rest, num, window =>
    let r := fgets n rest
    if r.2.2 then some (window, num)
    else
      let num1 := num + 1
      let pushed := window ++ [⟨r.1, num1⟩]
      lastLinesLoop n lines fuel r.2.1 num1
        (if (num1 : Int) > lines then pushed.tail else pushed)

/-- The function `printLastLines(lines)` on a file that can be opened, with
`currLineNum` the value of `g_curr_line_num` at the call.  After the reading
loop the `for` loop runs `printColorfulLine` on every buffer of the list; the
function returns only if every call has a result.  Result: the calls made, in
order (their output is `runCalls` of them), the new `g_curr_line_num`, the
returned size. -/
def printLastLines (cfg : Config) (fuel : Nat) (file : List Char) (lines : Int)
    (currLineNum : Nat) : Option (List Emit × Nat × Nat) :=
  if lines = 0 then some ([], currLineNum, file.length)
  else
    match lastLinesLoop cfg.lineMaxLength lines fuel file 0 [] with
    | none => none
    | some (window, num) =>
      match runCalls cfg window with
      | none => none
      | some _ => some (window, num, file.length)

/-- The inner `while (!feof(g_fp))` loop of `start`: every buffer read before
the end-of-file indicator is set is passed to `printColorfulLine` with the
incremented `g_curr_line_num`, and the call is run before the next buffer is
read; a call without result ends the loop without result.  Result: the calls
made, in order, and `g_curr_line_num` afterwards. -/
def pollLoop (cfg : Config) : Nat → List Char → Nat → Option (List Emit × Nat)
  | 0, _, _ => none
  | fuel + 1, rest, num =>
    let r := fgets cfg.lineMaxLength rest
    if r.2.2 then some ([], num)
    else
      match runPrintColorfulLine cfg r.1 r.1.length (num + 1) with
      | none => none
      | some _ =>
        match pollLoop cfg fuel r.2.1 (num + 1) with
        | none => none
        | some (out, last) => some (⟨r.1, num + 1⟩ :: out, last)

/-- The variables that live across the rounds of the loop of `start`:
`lenLast` and `g_curr_line_num`. -/
structure PollState where
  lenLast : Nat
  currLineNum : Nat
  deriving DecidableEq, Repr

/-- What one round of the loop of `start` did: `exit` is the status of
`exit(..)` if the round ended the process, `emitted` the calls of
`printColorfulLine` made in the round, `state` the variables afterwards. -/
structure PollResult where
  exit : Option Nat
  emitted : List Emit
  state : PollState
  deriving DecidableEq, Repr

/-- One round of the `while (true)` loop of `start` on a file that can be
opened and whose content is `file` at that moment.  `lenLast = lenThis` is
reached only when the inner loop, with its calls of `printColorfulLine`, has
come to its end. -/
def pollStep (cfg : Config) (fuel : Nat) (file : List Char) (st : PollState) :
    Option PollResult :=
  let lenThis := file.length
  if lenThis < st.lenLast then some ⟨some 1, [], st⟩
  else if lenThis > st.lenLast then
    let needToRead := lenThis - st.lenLast
    match pollLoop cfg fuel (file.drop (lenThis - needToRead)) st.currLineNum with
    | none => none
    | some (out, num) => some ⟨none, out, ⟨lenThis, num⟩⟩
  else some ⟨none, [], st⟩

/-- The rounds of the loop of `start` for the successive contents `files` that
the rounds find: the calls of all rounds in order, up to a fatal exit. -/
def pollRun (cfg : Config) (fuel : Nat) : PollState → List (List Char) → Option PollResult
  | st, [] => some ⟨none, [], st⟩
  | st, file :: files =>
    match pollStep cfg fuel file st with
    | none => none
    | some r =>
      match r.exit with
      | some _ => some r
      | none =>
        match pollRun cfg fuel r.state files with
        | none => none
        | some r2 => some ⟨r2.exit, r.emitted ++ r2.emitted, r2.state⟩

/-- The function `start()`: `printLastLines(g_config.linesOfLast)` on the
content `file0` with `g_curr_line_num = 0`, then the polling rounds, the
`i`-th of which finds the content `files[i]`. -/
def start (cfg : Config) (fuel : Nat) (file0 : List Char) (files : List (List Char)) :
    Option PollResult :=
  match printLastLines cfg fuel file0 cfg.linesOfLast 0 with
  | none => none
  | some (out, num, fileSize) =>
    match pollRun cfg fuel ⟨fileSize, num⟩ files with
    | none => none
    | some r => some ⟨r.exit, out ++ r.emitted, r.state⟩

/-! ## Vocabulary of the properties -/

/-- The successive buffers that a reader obtains from `fgets` before the
end-of-file indicator is set. -/
def readAll (n : Int) : Nat → List Char → Option (List (List Char))
  | 0, _ => none
  | fuel + 1, rest =>
    let r := fgets n rest
    if r.2.2 then some []
    else
      match readAll n fuel r.2.1 with
      | none => none
      | some bufs => some (r.1 :: bufs)

/-- The buffers `bufs` paired with the line numbers `k + 1, k + 2, ..`. -/
def numbered : Nat → List (List Char) → List Emit
  | _, [] => []
  | k, b :: bs => ⟨b, k + 1⟩ :: numbered (k + 1) bs

/-- The bytes of a file made of the newline-terminated lines `lines` followed
by the unterminated fragment `frag`. -/
def fileOf (lines : List (List Char)) (frag : List Char) : List Char :=
  (lines.map (· ++ ['\n'])).flatten ++ frag

/-- A block of bytes is made of whole lines: it is empty or ends with a
newline. -/
def Terminated (X : List Char) : Prop := X = [] ∨ ∃ X0, X = X0 ++ ['\n']

/-- The character is a line terminator for `printColorfulLine`. -/
def isTerm (c : Char) : Bool := c = '\n' || c = '\r'

/-- The line with all trailing `'\n'` and `'\r'` removed. -/
def rstrip (line : List Char) : List Char := line.rdropWhile isTerm

/-- The data-model invariant of a level rule: its marker is not empty and its
colour channels lie in `[0,255]`. -/
def Level.WellFormed (l : Level) : Prop :=
  l.textInLogFile ≠ [] ∧ 0 ≤ l.color.r ∧ l.color.r ≤ 255 ∧ 0 ≤ l.color.g ∧ l.color.g ≤ 255
    ∧ 0 ≤ l.color.b ∧ l.color.b ≤ 255

/-- The marker and the colour of a level rule are as the data model requires
and the marker contains neither `'\n'` nor `'\r'`. -/
def Level.Plain (l : Level) : Prop :=
  l.WellFormed ∧ ∀ c ∈ l.textInLogFile, isTerm c = false

instance : DecidablePred Level.WellFormed := fun l => by
  unfold Level.WellFormed; infer_instance

instance : DecidablePred Level.Plain := fun l => by
  unfold Level.Plain; infer_instance

/-- The first occurrence of `needle` in `hay` starts at offset `pos`. -/
def FirstOccAt (needle hay : List Char) (pos : Nat) : Prop :=
  needle <+: hay.drop pos ∧ ∀ q, q < pos → ¬ needle <+: hay.drop q

/-- The rule `level` has index `i` in the table, its marker occurs in `line`
as a substring, and no marker of a rule with a smaller index does. -/
def Wins (levels : List Level) (line : List Char) (i : Nat) (level : Level) : Prop :=
  levels[i]? = some level ∧ level.textInLogFile <:+: line
    ∧ ∀ j l, j < i → levels[j]? = some l → ¬ l.textInLogFile <:+: line

/-! ## Concrete configurations used in the examples -/

/-- Configuration with the default values except `line_max_length = 3`. -/
def cfgMax3 : Config := { defaultConfig with lineMaxLength := 3 }

/-- Configuration with the default values except `lines_of_last = 0`. -/
def cfgTail0 : Config := { defaultConfig with linesOfLast := 0 }

/-- Configuration `cfgMax3` with `lines_of_last = 0`. -/
def cfgMax3Tail0 : Config := { cfgMax3 with linesOfLast := 0 }

/-- Configuration with the default values except `highlight_line = true`. -/
def cfgWholeLine : Config := { defaultConfig with highlightLine := true }

/-- The rule `info` of the default table. -/
def infoLevel : Level := ⟨"info".toList, "[info]".toList, ⟨50, 150, 240⟩⟩

/-- Configuration after `-m line` and a configuration file whose section
`[trace]` has the line `text=` followed by a carriage return: whole-line mode,
and the marker of `trace` is the one character `'\r'`. -/
def cfgCrMarker : Config :=
  { defaultConfig with
    highlightLine := true
    levels :=
      [ ⟨"trace".toList, ['\r'], ⟨80, 220, 44⟩⟩,
        ⟨"debug".toList, "[debug]".toList, ⟨90, 220, 200⟩⟩,
        ⟨"info".toList, "[info]".toList, ⟨50, 150, 240⟩⟩,
        ⟨"warning".toList, "[warning]".toList, ⟨220, 240, 25⟩⟩,
        ⟨"error".toList, "[error]".toList, ⟨233, 20, 20⟩⟩,
        ⟨"critical".toList, "[critical]".toList, ⟨240, 20, 200⟩⟩ ] }

/-! ## Reading the configuration: `atoi`, `parseColor`, `parseKeyValueOfConfig` -/

/-- The conversion of a `long` to `int`: the value modulo `2^32`, taken in
`[-2^31, 2^31)`. -/
def toInt32 (v : Int) : Int := (v + 2147483648) % 4294967296 - 2147483648

/-- The test `isspace` in the C locale. -/
def isSpaceC (c : Char) : Bool :=
  c = ' ' || c = '\t' || c = '\n' || c = '\x0b' || c = '\x0c' || c = '\r'

/-- The value of the decimal digits at the front of a string, added to `acc`
times the matching power of ten; the first character that is no digit ends
the number. -/
def digitsValue : Nat → List Char → Nat
  | acc, [] => acc
  | acc, c :: cs => if c.isDigit then digitsValue (acc * 10 + (c.toNat - 48)) cs else acc

/-- The call `strtol(s, NULL, 10)` with a 64-bit `long`: white space is
skipped, then an optional sign, then the digits; no digit gives 0, and a value
outside the range of `long` gives `LONG_MAX` or `LONG_MIN`. -/
def strtol (s : List Char) : Int :=
  match s.dropWhile isSpaceC with
  | '-' :: t => max (-9223372036854775808) (-(digitsValue 0 t : Int))
  | '+' :: t => min 9223372036854775807 (digitsValue 0 t : Int)
  | t => min 9223372036854775807 (digitsValue 0 t : Int)

/-- The call `std::atoi(s)`, which is `(int) strtol(s, NULL, 10)`.  For a value
outside the range of `int` the C standard leaves the result open; the model
takes the conversion that the GNU C library performs. -/
def atoi (s : List Char) : Int := toInt32 (strtol s)

/-- The call `s.find(needle, start)` of `std::string`: offset of the first
occurrence at or after `start`, `none` for `npos`. -/
def sfind (s needle : List Char) (start : Nat) : Option Nat :=
  if start ≤ s.length then (strstr (s.drop start) needle).map (· + start) else none

/-- The function `parseColor(value, color)`: the returned flag and the colour
afterwards. -/
def parseColor (value : List Char) (color : Color) : Bool × Color :=
  match sfind value [','] 0 with
  | none => (false, color)
  | some pos1 =>
    let r := atoi (value.take pos1)
    match sfind value [','] (pos1 + 1) with
    | none => (false, color)
    | some pos2 =>
      let g := atoi ((value.drop (pos1 + 1)).take (pos2 - pos1 - 1))
      let b := atoi (value.drop (pos2 + 1))
      if r < 0 ∨ r > 255 ∨ g < 0 ∨ g > 255 ∨ b < 0 ∨ b > 255 then (false, color)
      else (true, ⟨r, g, b⟩)

/-- The `for` loop of `parseKeyValueOfConfig` over `g_config.levels`: at the
first level whose `groupName` is `currGroup` the function returns, with the
flag and the table afterwards; `none` when the loop ends without a return. -/
def parseLevelKey (currGroup key value : List Char) : List Level → Option (Bool × List Level)
  | [] => none
  | level :: rest =>
    if currGroup = level.groupName then
      if key = "color".toList then
        let r := parseColor value level.color
        some (r.1, { level with color := r.2 } :: rest)
      else if key = "text".toList then
        some (true, { level with textInLogFile := value } :: rest)
      else some (false, level :: rest)
    else
      match parseLevelKey currGroup key value rest with
      | none => none
      | some (flag, levels) => some (flag, level :: levels)

/-- The function `parseKeyValueOfConfig(currGroup, key, value)` on the global
`g_config = cfg`: the returned flag and `g_config` afterwards. -/
def parseKeyValueOfConfig (cfg : Config) (currGroup key value : List Char) : Bool × Config :=
  if key = [] ∨ value = [] then (false, cfg)
  else
    match parseLevelKey currGroup key value cfg.levels with
    | some (flag, levels) => (flag, { cfg with levels := levels })
    | none =>
      if currGroup = "basic".toList then
        if key = "line_max_length".toList then
          (true, { cfg with lineMaxLength := atoi value })
        else if key = "lines_of_last".toList then
          (true, { cfg with linesOfLast := atoi value })
        else if key = "detect_interval".toList then
          (true, { cfg with detectInterval := atoi value })
        else if key = "highlight_line".toList then
          if value = "true".toList ∨ value = "1".toList then
            (true, { cfg with highlightLine := true })
          else if key = "false".toList ∨ value = "0".toList then
            (true, { cfg with highlightLine := false })
          else (false, cfg)
        else if key = "show_line_number".toList then
          if value = "true".toList ∨ value = "1".toList then
            (true, { cfg with showLineNumber := true })
          else if key = "false".toList ∨ value = "0".toList then
            (true, { cfg with showLineNumber := false })
          else (false, cfg)
        else if key = "line_number_color".toList then
          let r := parseColor value cfg.lineNumberColor
          (r.1, { cfg with lineNumberColor := r.2 })
        else (false, cfg)
      else (false, cfg)

/-! ## Reading the configuration: `trim`, `replaceAll`, `parseGroup`, `readConfig` -/

/-- The function `trim(str)`: the blanks `' '` at both ends are erased. -/
def trim (str : List Char) : List Char :=
  (str.dropWhile (· = ' ')).rdropWhile (· = ' ')

/-- The `while (true)` loop of `replaceAll(str, oldVal, newVal)`: as long as
`oldVal` is found, its first occurrence is replaced; `none` when the loop has
not ended within the fuel. -/
def replaceAllLoop (oldVal newVal : List Char) : Nat → List Char → Option (List Char)
  | 0, _ => none
  | fuel + 1, str =>
    match sfind str oldVal 0 with
    | none => some str
    | some pos =>
      replaceAllLoop oldVal newVal fuel (str.take pos ++ newVal ++ str.drop (pos + oldVal.length))

/-- The function `replaceAll(str, oldVal, newVal)`, run for at most
`str.length + 1` rounds. -/
def replaceAll (str oldVal newVal : List Char) : Option (List Char) :=
  replaceAllLoop oldVal newVal (str.length + 1) str

/-- The call `std::getline(ifs, line)` on a stream with `rest` unread: the line
(the characters in front of the first newline) and what is unread after that
newline; `none` when the end of the file is reached before a newline, which is
when `eofbit` is set. -/
def getline : List Char → Option (List Char × List Char)
  | [] => none
  | c :: cs =>
    if c = '\n' then some ([], cs)
    else
      match getline cs with
      | none => none
      | some (line, rest) => some (c :: line, rest)

/-- The lines that successive calls of `std::getline` return before the call
that sets `eofbit`. -/
def getlinesAux : Nat → List Char → List (List Char)
  | 0, _ => []
  | fuel + 1, s =>
    match getline s with
    | none => []
    | some (line, rest) => line :: getlinesAux fuel rest

/-- The lines of a file that the loops of `readConfig` and `parseGroup`
process: both loops leave at `if (ifs.eof()) break;`, so the line read by the
call of `std::getline` that sets `eofbit` is not among them. -/
def getlines (file : List Char) : List (List Char) := getlinesAux file.length file

/-- The function `parseGroup(ifs, currGroup)` on the lines still to come, with
`g_config = cfg`: the returned flag and `g_config` afterwards; `none` when
`replaceAll` has not ended. -/
def parseGroup : Config → List Char → List (List Char) → Option (Bool × Config)
  | cfg, _, [] => some (true, cfg)
  | cfg, currGroup, raw :: rest =>
    let line := trim raw
    if line = [] ∨ line.head? = some '#' then parseGroup cfg currGroup rest
    else if line.length < 3 then some (false, cfg)
    else if line.head? = some '[' ∧ line.getLast? = some ']' then
      parseGroup cfg (trim ((line.drop 1).take (line.length - 2))) rest
    else
      match sfind line ['='] 0 with
      | none => some (false, cfg)
      | some pos =>
        let key := trim (line.take pos)
        match replaceAll (trim (line.drop (pos + 1))) "<space>".toList " ".toList with
        | none => none
        | some value =>
          if key = [] ∨ value = [] then some (false, cfg)
          else
            let r := parseKeyValueOfConfig cfg currGroup key value
            if r.1 then parseGroup r.2 currGroup rest else some (false, r.2)

/-- The `while (!ifs.eof())` loop of `readConfig` on the lines still to come.
When `parseGroup` returns `true` the end of the file has been reached and the
loop ends. -/
def readConfigLoop : Config → List (List Char) → Option (Bool × Config)
  | cfg, [] => some (true, cfg)
  | cfg, raw :: rest =>
    let line := trim raw
    if line = [] ∨ line.head? = some '#' then readConfigLoop cfg rest
    else if line.length < 2 ∨ line.head? ≠ some '[' ∨ line.getLast? ≠ some ']' then
      some (false, cfg)
    else parseGroup cfg (trim ((line.drop 1).take (line.length - 2))) rest

/-- The function `readConfig(cfgFile)`: `file` is the content of the file, or
`none` when it cannot be opened. -/
def readConfig (cfg : Config) (file : Option (List Char)) : Option (Bool × Config) :=
  match file with
  | none => some (false, cfg)
  | some content => readConfigLoop cfg (getlines content)

/-! ## `main` -/

/-- What a part of `main` leads to: `exit status` for `return status`, `next`
for going on with `g_config` and `configFileName`. -/
inductive OptionStep where
  | exit (status : Nat)
  | next (cfg : Config) (configFileName : Option (List Char))
  deriving DecidableEq, Repr

/-- The `switch (ret)` of the option loop of `main` for one result `ret` of
`getopt_long` with the argument `optarg`.  The case `'i'` has no `break` and
runs on into the case `'n'`. -/
def handleOption (cfg : Config) (configFileName : Option (List Char)) (ret : Char)
    (optarg : List Char) : OptionStep :=
  if ret = 'c' then .next cfg (some optarg)
  else if ret = 'l' then .next { cfg with showLineNumber := true } configFileName
  else if ret = 'i' then
    let cfg1 := { cfg with detectInterval := atoi optarg }
    .next { cfg1 with linesOfLast := atoi optarg } configFileName
  else if ret = 'n' then .next { cfg with linesOfLast := atoi optarg } configFileName
  else if ret = 'm' then
    if optarg = "default".toList ∨ optarg = "keyword".toList ∨ optarg = "level".toList then
      .next { cfg with highlightLine := false } configFileName
    else if optarg = "line".toList then .next { cfg with highlightLine := true } configFileName
    else .exit 1
  else .exit 1

/-- The option loop of `main` over the successive results of `getopt_long`. -/
def optionLoop : Config → Option (List Char) → List (Char × List Char) → OptionStep
  | cfg, configFileName, [] => .next cfg configFileName
  | cfg, configFileName, (ret, optarg) :: more =>
    match handleOption cfg configFileName ret optarg with
    | .exit status => .exit status
    | .next cfg1 name1 => optionLoop cfg1 name1 more

/-- The checks of `main` between `readConfig` and `start()`: negative
`detectInterval` and `linesOfLast` are set to 0, and `lineMaxLength` above
`NUM_MAX_LINES = 512` ends the program (`none`). -/
def validateConfig (cfg : Config) : Option Config :=
  let cfg1 := if cfg.detectInterval < 0 then { cfg with detectInterval := 0 } else cfg
  let cfg2 := if cfg1.linesOfLast < 0 then { cfg1 with linesOfLast := 0 } else cfg1
  if cfg2.lineMaxLength > 512 then none else some cfg2

/-- How `main` ends: with `return status`, or in `start()` with `g_config = cfg`
and `g_log_file = logFile`. -/
inductive MainResult where
  | exit (status : Nat)
  | start (cfg : Config) (logFile : List Char)
  deriving DecidableEq, Repr

/-- The function `main`: `opts` are the successive results of `getopt_long`
(option character and argument), `operands` the arguments left after the
options, `fs` the content of the files by name.  `none` when `replaceAll` has
not ended. -/
def main (fs : List Char → Option (List Char)) (opts : List (Char × List Char))
    (operands : List (List Char)) : Option MainResult :=
  match optionLoop defaultConfig none opts with
  | .exit status => some (.exit status)
  | .next cfg configFileName =>
    match operands with
    | [logFile] =>
      let loaded : Option (Bool × Config) :=
        match configFileName with
        | none => some (true, cfg)
        | some name => readConfig cfg (fs name)
      match loaded with
      | none => none
      | some (flag, cfg1) =>
        if flag then
          match validateConfig cfg1 with
          | none => some (.exit 1)
          | some cfg2 => some (.start cfg2 logFile)
        else some (.exit 1)
    | _ => some (.exit 1)

/-! ## Vocabulary of the properties of the configuration -/

/-- The integer is a colour channel: it lies in `[0,255]`. -/
def InByte (v : Int) : Prop := 0 ≤ v ∧ v ≤ 255

instance : DecidablePred InByte := fun v => by
  unfold InByte; infer_instance

/-- The level table has its colour channels in `[0,255]` and no `'\n'` or
`'\r'` in its markers. -/
def TableOk (cfg : Config) : Prop :=
  ∀ l ∈ cfg.levels, (InByte l.color.r ∧ InByte l.color.g ∧ InByte l.color.b)
    ∧ ∀ c ∈ l.textInLogFile, isTerm c = false

instance : DecidablePred TableOk := fun cfg => by
  unfold TableOk; infer_instance

/-- The group names of the six level rules, in order. -/
def levelNames : List (List Char) :=
  ["trace".toList, "debug".toList, "info".toList, "warning".toList, "error".toList,
    "critical".toList]

/-- The keys of the group `basic`. -/
def basicKeys : List (List Char) :=
  ["line_max_length".toList, "lines_of_last".toList, "detect_interval".toList,
    "highlight_line".toList, "show_line_number".toList, "line_number_color".toList]

/-- The invariant of the level table and the colours of a `Config`: six rules
named trace, debug, info, warning, error, critical in this order, no marker
empty, every channel of every colour in `[0,255]`. -/
def ConfigInv (cfg : Config) : Prop :=
  cfg.levels.map (·.groupName) = levelNames
  ∧ (∀ l ∈ cfg.levels, l.WellFormed)
  ∧ InByte cfg.lineNumberColor.r ∧ InByte cfg.lineNumberColor.g ∧ InByte cfg.lineNumberColor.b

/-- The configuration after a sequence of calls of `parseKeyValueOfConfig`,
each given by its group, key and value, whatever the calls return. -/
def applyCalls : Config → List (List Char × List Char × List Char) → Config
  | cfg, [] => cfg
  | cfg, (group, key, value) :: more =>
    applyCalls (parseKeyValueOfConfig cfg group key value).2 more

/-- The string `value` has two commas at least: `f1` is what stands in front
of the first comma, `f2` what stands between the first and the second, `f3`
all that follows the second.  These are the three substrings that
`parseColor` hands to `atoi`. -/
def ColorFields (value f1 f2 f3 : List Char) : Prop :=
  value = f1 ++ ',' :: (f2 ++ ',' :: f3) ∧ ',' ∉ f1 ∧ ',' ∉ f2

/-- The colour value has its three fields and one of the channels read from
them lies outside `[0,255]`. -/
def ChannelOutOfRange (value : List Char) : Prop :=
  ∃ f1 f2 f3, ColorFields value f1 f2 f3
    ∧ ¬ (InByte (atoi f1) ∧ InByte (atoi f2) ∧ InByte (atoi f3))

/-- The count arguments of the calls of `strncpy` in `printColorfulLine`, in
program order, for the trimmed length `len`. -/
def strncpyCounts (cfg : Config) (line : List Char) (len : Nat) : List Int :=
  match findLevel cfg.levels line with
  | none => [(len : Int)]
  | some (level, lenBeforeHighlight) =>
    if cfg.highlightLine then [(len : Int)]
    else
      [(lenBeforeHighlight : Int), (level.textInLogFile.length : Int),
        (len : Int) - ((lenBeforeHighlight : Int) + (level.textInLogFile.length : Int))]

/-- The indices `len - 1` at which the trimming loop of `printColorfulLine`
reads `line`, in order, when it starts with the given `len`. -/
def trimReads (line : List Char) : Nat → List Int
  | 0 => [-1]
  | k + 1 =>
    match charAt line k with
    | none => [(k : Int)]
    | some c => if c = '\n' ∨ c = '\r' then (k : Int) :: trimReads line k else [(k : Int)]

/-- The file system in which the one file `name` has the content `content`. -/
def oneFile (name content : List Char) : List Char → Option (List Char) :=
  fun n => if n = name then some content else none

/-! ## Concrete inputs of the configuration examples -/

/-- Configuration with the default values except `show_line_number = true`. -/
def cfgShowNumber : Config := { defaultConfig with showLineNumber := true }

/-- Configuration with the default values except `line_max_length = 0`. -/
def cfgMax0 : Config := { defaultConfig with lineMaxLength := 0 }

/-- Configuration after a configuration file whose section `[trace]` has the
line `text=` followed by a carriage return, in the default keyword mode: the
marker of `trace` is the one character `'\r'`. -/
def cfgCrKeyword : Config := { cfgCrMarker with highlightLine := false }

/-! ## Lemmas on the readers -/

theorem fgetsAux_line (l rest : List Char) (hl : '\n' ∉ l) :
    ∀ k, l.length + 1 ≤ k → fgetsAux k (l ++ '\n' :: rest) = (l ++ ['\n'], rest, false) := by
  induction l with
  | nil =>
    intro k hk
    obtain ⟨k, rfl⟩ : ∃ j, k = j + 1 := ⟨k - 1, by simp at hk; omega⟩
    simp [fgetsAux]
  | cons c cs ih =>
    intro k hk
    obtain ⟨k, rfl⟩ : ∃ j, k = j + 1 := ⟨k - 1, by simp at hk; omega⟩
    have hc : c ≠ '\n' := fun h => hl (by simp [h])
    have hcs : '\n' ∉ cs := fun h => hl (List.mem_cons_of_mem _ h)
    have := ih hcs k (by simp at hk; omega)
    simp [fgetsAux, hc, this]

theorem fgetsAux_frag (f : List Char) (hf : '\n' ∉ f) :
    ∀ k, f.length < k → fgetsAux k f = (f, [], true) := by
  induction f with
  | nil =>
    intro k hk
    obtain ⟨k, rfl⟩ : ∃ j, k = j + 1 := ⟨k - 1, by simp at hk; omega⟩
    simp [fgetsAux]
  | cons c cs ih =>
    intro k hk
    obtain ⟨k, rfl⟩ : ∃ j, k = j + 1 := ⟨k - 1, by simp at hk; omega⟩
    have hc : c ≠ '\n' := fun h => hf (by simp [h])
    have hcs : '\n' ∉ cs := fun h => hf (List.mem_cons_of_mem _ h)
    have := ih hcs k (by simp at hk; omega)
    simp [fgetsAux, hc, this]

theorem fgets_line (n : Int) (l rest : List Char) (hl : '\n' ∉ l)
    (hk : l.length + 1 ≤ (n - 1).toNat) :
    fgets n (l ++ '\n' :: rest) = (l ++ ['\n'], rest, false) :=
  fgetsAux_line l rest hl _ hk

theorem fgets_frag (n : Int) (f : List Char) (hf : '\n' ∉ f) (hk : f.length < (n - 1).toNat) :
    fgets n f = (f, [], true) :=
  fgetsAux_frag f hf _ hk

theorem readAll_fileOf (n : Int) (frag : List Char) (hfrag : '\n' ∉ frag)
    (hfl : frag.length < (n - 1).toNat) :
    ∀ (lines : List (List Char)) (fuel : Nat),
      (∀ l ∈ lines, '\n' ∉ l ∧ l.length + 1 ≤ (n - 1).toNat) → lines.length < fuel →
      readAll n fuel (fileOf lines frag) = some (lines.map (· ++ ['\n'])) := by
  intro lines
  induction lines with
  | nil =>
    intro fuel _ hfuel
    obtain ⟨fuel, rfl⟩ : ∃ j, fuel = j + 1 := ⟨fuel - 1, by simp at hfuel; omega⟩
    have hf : fileOf [] frag = frag := by simp [fileOf]
    simp only [readAll, hf, fgets_frag n frag hfrag hfl, if_true]
    rfl
  | cons l ls ih =>
    intro fuel hls hfuel
    obtain ⟨fuel, rfl⟩ : ∃ j, fuel = j + 1 := ⟨fuel - 1, by simp at hfuel; omega⟩
    have h1 := hls l (by simp)
    have hrest : fileOf (l :: ls) frag = l ++ '\n' :: fileOf ls frag := by
      simp [fileOf]
    have ih2 := ih fuel (fun x hx => hls x (List.mem_cons_of_mem _ hx)) (by simp at hfuel; omega)
    simp only [readAll, hrest, fgets_line n l _ h1.1 h1.2, ih2]
    simp


theorem numbered_length : ∀ (bufs : List (List Char)) (k : Nat),
    (numbered k bufs).length = bufs.length := by
  intro bufs
  induction bufs with
  | nil => intro k; rfl
  | cons b bs ih => intro k; simp [numbered, ih]

theorem numbered_append : ∀ (p q : List (List Char)) (k : Nat),
    numbered k (p ++ q) = numbered k p ++ numbered (k + p.length) q := by
  intro p
  induction p with
  | nil => intro q k; simp [numbered]
  | cons b bs ih =>
    intro q k
    have h1 : k + 1 + bs.length = k + (bs.length + 1) := by omega
    have h2 := ih q (k + 1)
    rw [h1] at h2
    simp only [List.cons_append, numbered, List.length_cons]
    exact congrArg _ h2

/-- The sliding window of `printLastLines` after one more buffer: it holds the
last `N` of the numbered buffers read so far. -/
theorem window_push (N : Nat) (p : List (List Char)) (b : List Char) :
    (if ((p.length + 1 : Nat) : Int) > (N : Int)
      then ((numbered 0 p).drop (p.length - N) ++ [Emit.mk b (p.length + 1)]).tail
      else (numbered 0 p).drop (p.length - N) ++ [Emit.mk b (p.length + 1)])
      = (numbered 0 (p ++ [b])).drop ((p ++ [b]).length - N) := by
  have hL : (numbered 0 p).length = p.length := numbered_length p 0
  have happ : numbered 0 (p ++ [b]) = numbered 0 p ++ [⟨b, p.length + 1⟩] := by
    rw [numbered_append]; simp [numbered]
  rw [happ]
  by_cases h : p.length + 1 > N
  · have hc : ((p.length + 1 : Nat) : Int) > (N : Int) := by exact_mod_cast h
    rw [if_pos hc]
    have h1 : (p ++ [b]).length - N = (p.length - N) + 1 := by simp; omega
    rw [h1, ← List.drop_append_of_le_length (by omega : p.length - N ≤ (numbered 0 p).length)]
    rw [List.tail_drop]
  · have hc : ¬ ((p.length + 1 : Nat) : Int) > (N : Int) := by
      intro hh; exact h (by exact_mod_cast hh)
    rw [if_neg hc]
    have h1 : (p ++ [b]).length - N = 0 := by simp; omega
    have h2 : p.length - N = 0 := by omega
    rw [h1, h2]; simp

theorem lastLinesLoop_eq_readAll (n : Int) (N : Nat) :
    ∀ (fuel : Nat) (rest : List Char) (bufs p : List (List Char)),
      readAll n fuel rest = some bufs →
      lastLinesLoop n N fuel rest p.length ((numbered 0 p).drop (p.length - N))
        = some ((numbered 0 (p ++ bufs)).drop ((p ++ bufs).length - N), (p ++ bufs).length) := by
  intro fuel
  induction fuel with
  | zero => intro rest bufs p h; simp [readAll] at h
  | succ fuel ih =>
    intro rest bufs p h
    simp only [readAll] at h
    simp only [lastLinesLoop]
    by_cases he : (fgets n rest).2.2 = true
    · simp only [he, if_true, Option.some.injEq] at h
      subst h
      simp [he]
    · simp only [he, Bool.false_eq_true, if_false] at h ⊢
      cases hr : readAll n fuel (fgets n rest).2.1 with
      | none => simp [hr] at h
      | some bufs2 =>
        simp only [hr, Option.some.injEq] at h
        subst h
        have hw := window_push N p (fgets n rest).1
        have hlen : p.length + 1 = (p ++ [(fgets n rest).1]).length := by simp
        rw [hw, hlen, ih _ bufs2 (p ++ [(fgets n rest).1]) hr]
        simp

theorem fileOf_length_ge (lines : List (List Char)) (frag : List Char) :
    lines.length ≤ (fileOf lines frag).length := by
  induction lines with
  | nil => simp
  | cons l ls ih =>
    have : fileOf (l :: ls) frag = l ++ '\n' :: fileOf ls frag := by simp [fileOf]
    rw [this]; simp; omega

theorem fgetsAux_spec : ∀ (k : Nat) (rest : List Char),
    (fgetsAux k rest).1 ++ (fgetsAux k rest).2.1 = rest
    ∧ (fgetsAux k rest).1.length ≤ k
    ∧ ((fgetsAux k rest).2.2 = true → (fgetsAux k rest).2.1 = [] ∧ '\n' ∉ (fgetsAux k rest).1)
    ∧ (0 < k → (fgetsAux k rest).2.2 = false → (fgetsAux k rest).1 ≠ []) := by
  intro k
  induction k with
  | zero => intro rest; simp [fgetsAux]
  | succ k ih =>
    intro rest
    cases rest with
    | nil => simp [fgetsAux]
    | cons c cs =>
      by_cases hc : c = '\n'
      · simp [fgetsAux, hc]
      · obtain ⟨h1, h2, h3, _⟩ := ih cs
        simp only [fgetsAux, hc, if_false]
        refine ⟨by simp [h1], by simp; omega, ?_, by simp⟩
        intro he
        obtain ⟨h5, h6⟩ := h3 he
        refine ⟨h5, ?_⟩
        simp only [List.mem_cons, not_or]
        exact ⟨fun h => hc h.symm, h6⟩

/-- With a buffer of at least one character the reading loop ends on every
input: it returns the buffers read, which together with the discarded rest
`frag` (the last, unterminated read) make up the input. -/
theorem readAll_total (n : Int) (hn : 0 < (n - 1).toNat) :
    ∀ (fuel : Nat) (rest : List Char), rest.length < fuel →
      ∃ bufs frag, readAll n fuel rest = some bufs ∧ bufs.flatten ++ frag = rest
        ∧ '\n' ∉ frag ∧ ∀ b ∈ bufs, b.length ≤ (n - 1).toNat ∧ b ≠ [] := by
  intro fuel
  induction fuel with
  | zero => intro rest h; omega
  | succ fuel ih =>
    intro rest hlen
    obtain ⟨h1, h2, h3, h4⟩ := fgetsAux_spec (n - 1).toNat rest
    simp only [readAll]
    by_cases he : (fgets n rest).2.2 = true
    · obtain ⟨h5, h6⟩ := h3 he
      refine ⟨[], (fgets n rest).1, by simp [he], ?_, h6, by simp⟩
      have : (fgets n rest).1 ++ (fgets n rest).2.1 = rest := h1
      rw [show (fgets n rest).2.1 = [] from h5] at this
      simpa using this
    · have he2 : (fgets n rest).2.2 = false := by simpa using he
      have hne : (fgets n rest).1 ≠ [] := h4 hn he2
      have hsplit : (fgets n rest).1 ++ (fgets n rest).2.1 = rest := h1
      have hpos : 0 < (fgets n rest).1.length := List.length_pos.mpr hne
      have hshort : (fgets n rest).2.1.length < fuel := by
        have := congrArg List.length hsplit
        simp only [List.length_append] at this
        omega
      obtain ⟨bufs, frag, hr, hcat, hfrag, hb⟩ := ih (fgets n rest).2.1 hshort
      refine ⟨(fgets n rest).1 :: bufs, frag, by simp [he2, hr], ?_, hfrag, ?_⟩
      · simp only [List.flatten_cons, List.append_assoc, hcat, hsplit]
      · intro b hbm
        rcases List.mem_cons.mp hbm with h | h
        · subst h; exact ⟨h2, hne⟩
        · exact hb b h

/-- On a terminated line every byte is in one of the buffers read. -/
theorem readAll_terminated (n : Int) (hn : 0 < (n - 1).toNat) (fuel : Nat) (l : List Char)
    (hfuel : l.length + 1 < fuel) :
    ∃ bufs, readAll n fuel (l ++ ['\n']) = some bufs ∧ bufs.flatten = l ++ ['\n']
      ∧ ∀ b ∈ bufs, b.length ≤ (n - 1).toNat ∧ b ≠ [] := by
  obtain ⟨bufs, frag, hr, hcat, hfrag, hb⟩ := readAll_total n hn fuel (l ++ ['\n']) (by simpa)
  refine ⟨bufs, hr, ?_, hb⟩
  rcases List.eq_nil_or_concat frag with h | ⟨init, x, h⟩
  · subst h; simpa using hcat
  · subst h
    rw [List.concat_eq_append] at hcat hfrag
    rw [← List.append_assoc] at hcat
    have hx := List.append_inj_right' hcat (by simp)
    simp only [List.cons.injEq, and_true] at hx
    exact absurd (by simp [hx]) hfrag

theorem readAll_fuel_mono (n : Int) : ∀ (f : Nat) (rest : List Char) (bufs : List (List Char)),
    readAll n f rest = some bufs → ∀ f2, f ≤ f2 → readAll n f2 rest = some bufs := by
  intro f
  induction f with
  | zero => intro rest bufs h; simp [readAll] at h
  | succ f ih =>
    intro rest bufs h f2 hf2
    obtain ⟨f2, rfl⟩ : ∃ j, f2 = j + 1 := ⟨f2 - 1, by omega⟩
    simp only [readAll] at h ⊢
    by_cases he : (fgets n rest).2.2 = true
    · simpa [he] using h
    · simp only [he, Bool.false_eq_true, if_false] at h ⊢
      cases hr : readAll n f (fgets n rest).2.1 with
      | none => simp [hr] at h
      | some bufs2 =>
        simp only [hr] at h
        rw [ih _ bufs2 hr f2 (by omega)]
        exact h

theorem fgetsAux_append (B : List Char) : ∀ (k : Nat) (X : List Char),
    (fgetsAux k X).2.2 = false →
    fgetsAux k (X ++ B) = ((fgetsAux k X).1, (fgetsAux k X).2.1 ++ B, false) := by
  intro k
  induction k with
  | zero => intro X _; simp [fgetsAux]
  | succ k ih =>
    intro X he
    cases X with
    | nil => simp [fgetsAux] at he
    | cons c cs =>
      by_cases hc : c = '\n'
      · simp [fgetsAux, hc]
      · simp only [fgetsAux, hc, if_false] at he
        have h := ih cs he
        simp only [List.cons_append, fgetsAux, hc, if_false, List.append_eq, h]

theorem terminated_suffix (b r : List Char) (h : Terminated (b ++ r)) : Terminated r := by
  rcases List.eq_nil_or_concat r with hr | ⟨r0, x, hr⟩
  · exact Or.inl hr
  · rw [List.concat_eq_append] at hr
    subst hr
    rcases h with h | ⟨X0, h⟩
    · simp at h
    · rw [← List.append_assoc] at h
      have hx := List.append_inj_right' h (by simp)
      simp only [List.cons.injEq, and_true] at hx
      subst hx
      exact Or.inr ⟨r0, rfl⟩

/-- Reading a block of whole lines followed by more bytes: the buffers of the
block come first and make up the block, then come the buffers of what
follows. -/
theorem readAll_append (n : Int) (hn : 0 < (n - 1).toNat) (B : List Char)
    (bufsB : List (List Char)) (fB : Nat) (hB : readAll n fB B = some bufsB) :
    ∀ (fuel : Nat) (X : List Char), Terminated X → X.length + fB ≤ fuel →
      ∃ bufsX, bufsX.flatten = X ∧ (∀ b ∈ bufsX, b.length ≤ (n - 1).toNat ∧ b ≠ [])
        ∧ readAll n fuel (X ++ B) = some (bufsX ++ bufsB) := by
  intro fuel
  induction fuel with
  | zero =>
    intro X _ hf
    have : fB = 0 := by omega
    subst this
    simp [readAll] at hB
  | succ fuel ih =>
    intro X hX hf
    rcases hX with hX | ⟨X0, hX⟩
    · subst hX
      exact ⟨[], rfl, by simp, by simpa using readAll_fuel_mono n fB B bufsB hB _ (by simpa using hf)⟩
    · obtain ⟨h1, h2, h3, h4⟩ := fgetsAux_spec (n - 1).toNat X
      have he : (fgetsAux (n - 1).toNat X).2.2 = false := by
        by_contra hne
        have het : (fgetsAux (n - 1).toNat X).2.2 = true := by simpa using hne
        obtain ⟨h5, h6⟩ := h3 het
        rw [h5, List.append_nil] at h1
        rw [h1, hX] at h6
        exact h6 (by simp)
      have hne := h4 hn he
      have hpos : 0 < (fgetsAux (n - 1).toNat X).1.length := List.length_pos.mpr hne
      have hlen := congrArg List.length h1
      simp only [List.length_append] at hlen
      have hterm : Terminated (fgetsAux (n - 1).toNat X).2.1 :=
        terminated_suffix (fgetsAux (n - 1).toNat X).1 _ (by rw [h1]; exact Or.inr ⟨X0, hX⟩)
      obtain ⟨bufsR, hflat, hb, hr⟩ := ih (fgetsAux (n - 1).toNat X).2.1 hterm (by omega)
      refine ⟨(fgetsAux (n - 1).toNat X).1 :: bufsR, ?_, ?_, ?_⟩
      · simp only [List.flatten_cons, hflat, h1]
      · intro b hbm
        rcases List.mem_cons.mp hbm with h | h
        · subst h; exact ⟨h2, hne⟩
        · exact hb b h
      · simp only [readAll, fgets, fgetsAux_append B _ X he, Bool.false_eq_true, if_false, hr,
          List.cons_append]

/-! ## Lemmas on `printColorfulLine` -/

theorem strstr_eq_none_iff (needle : List Char) : ∀ hay : List Char,
    strstr hay needle = none ↔ ¬ needle <:+: hay := by
  intro hay
  induction hay with
  | nil =>
    by_cases h : needle = []
    · simp [strstr, h]
    · simp [strstr, h, List.infix_nil]
  | cons c cs ih =>
    by_cases hp : needle.isPrefixOf (c :: cs) = true
    · have hpre : needle <+: c :: cs := List.isPrefixOf_iff_prefix.mp hp
      simp [strstr, hp, hpre.isInfix]
    · have hpre : ¬ needle <+: c :: cs := fun h => hp (List.isPrefixOf_iff_prefix.mpr h)
      simp only [strstr, hp, Bool.false_eq_true, if_false, Option.map_eq_none', ih,
        List.infix_cons_iff, hpre, false_or]

theorem strstr_firstOcc (needle : List Char) : ∀ (hay : List Char) (pos : Nat),
    strstr hay needle = some pos → FirstOccAt needle hay pos := by
  intro hay
  induction hay with
  | nil =>
    intro pos h
    by_cases hn : needle = []
    · simp only [strstr, hn, if_true, Option.some.injEq] at h
      subst h; subst hn
      exact ⟨by simp, fun q hq => by omega⟩
    · simp [strstr, hn] at h
  | cons c cs ih =>
    intro pos h
    by_cases hp : needle.isPrefixOf (c :: cs) = true
    · simp only [strstr, hp, if_true, Option.some.injEq] at h
      subst h
      exact ⟨by simpa using List.isPrefixOf_iff_prefix.mp hp, fun q hq => by omega⟩
    · have hpre : ¬ needle <+: c :: cs := fun h => hp (List.isPrefixOf_iff_prefix.mpr h)
      simp only [strstr, hp, Bool.false_eq_true, if_false, Option.map_eq_some'] at h
      obtain ⟨p, hp1, hp2⟩ := h
      subst hp2
      obtain ⟨h1, h2⟩ := ih p hp1
      refine ⟨by simpa using h1, ?_⟩
      intro q hq
      cases q with
      | zero => simpa using hpre
      | succ q => simpa using h2 q (by omega)

theorem findLevel_eq_none_iff (line : List Char) : ∀ levels : List Level,
    findLevel levels line = none ↔ ∀ l ∈ levels, ¬ l.textInLogFile <:+: line := by
  intro levels
  induction levels with
  | nil => simp [findLevel]
  | cons l ls ih =>
    cases hs : strstr line l.textInLogFile with
    | none =>
      have := (strstr_eq_none_iff l.textInLogFile line).mp hs
      simp [findLevel, hs, ih, this]
    | some pos =>
      have hocc : l.textInLogFile <:+: line := by
        by_contra hno
        have := (strstr_eq_none_iff l.textInLogFile line).mpr hno
        simp [hs] at this
      simp [findLevel, hs, hocc]

theorem findLevel_of_wins (line : List Char) : ∀ (levels : List Level) (i : Nat) (level : Level),
    Wins levels line i level →
    ∃ pos, findLevel levels line = some (level, pos)
      ∧ FirstOccAt level.textInLogFile line pos := by
  intro levels
  induction levels with
  | nil => intro i level h; simp [Wins] at h
  | cons l ls ih =>
    intro i level h
    obtain ⟨h1, h2, h3⟩ := h
    cases i with
    | zero =>
      simp only [List.getElem?_cons_zero, Option.some.injEq] at h1
      subst h1
      cases hs : strstr line l.textInLogFile with
      | none => exact absurd h2 ((strstr_eq_none_iff _ _).mp hs)
      | some pos => exact ⟨pos, by simp [findLevel, hs], strstr_firstOcc _ _ _ hs⟩
    | succ i =>
      have hl : ¬ l.textInLogFile <:+: line := h3 0 l (by omega) (by simp)
      have hs := (strstr_eq_none_iff _ _).mpr hl
      have hw : Wins ls line i level := by
        refine ⟨by simpa using h1, h2, ?_⟩
        intro j l2 hj hj2
        exact h3 (j + 1) l2 (by omega) (by simpa using hj2)
      obtain ⟨pos, hf, ho⟩ := ih i level hw
      exact ⟨pos, by simp [findLevel, hs, hf], ho⟩

theorem wins_of_occurs (line : List Char) : ∀ (levels : List Level),
    (∃ l ∈ levels, l.textInLogFile <:+: line) → ∃ i level, Wins levels line i level := by
  intro levels
  induction levels with
  | nil => intro h; simp at h
  | cons l ls ih =>
    intro h
    by_cases hl : l.textInLogFile <:+: line
    · exact ⟨0, l, by simp, hl, fun j _ hj => by omega⟩
    · obtain ⟨x, hx, hxo⟩ := h
      have hx2 : x ∈ ls := by
        rcases List.mem_cons.mp hx with h | h
        · subst h; exact absurd hxo hl
        · exact h
      obtain ⟨i, level, h1, h2, h3⟩ := ih ⟨x, hx2, hxo⟩
      refine ⟨i + 1, level, by simpa using h1, h2, ?_⟩
      intro j l2 hj hj2
      cases j with
      | zero =>
        simp only [List.getElem?_cons_zero, Option.some.injEq] at hj2
        subst hj2; exact hl
      | succ j => exact h3 j l2 (by omega) (by simpa using hj2)

theorem isTerm_iff (c : Char) : (c = '\n' ∨ c = '\r') ↔ isTerm c = true := by
  simp [isTerm]

theorem charAt_append_left (l s : List Char) (k : Nat) (hk : k < l.length) :
    charAt (l ++ s) k = charAt l k := by
  have h2 : k < (l ++ s).length := by simp; omega
  simp only [charAt, hk, h2, dite_true, List.get_eq_getElem]
  rw [List.getElem_append_left hk]

theorem trimLen_append (l s : List Char) : ∀ k, k ≤ l.length →
    trimLen (l ++ s) k = trimLen l k := by
  intro k
  induction k with
  | zero => intro _; rfl
  | succ k ih =>
    intro hk
    simp only [trimLen, charAt_append_left l s k (by omega), ih (by omega)]

theorem charAt_concat (l : List Char) (c : Char) : charAt (l ++ [c]) l.length = some c := by
  simp [charAt]

/-- The trimming loop of `printColorfulLine` on a whole line: it reads outside
the line when every character is a terminator, and otherwise stops at the
length of the line without its trailing terminators. -/
theorem trimLen_eq (line : List Char) :
    trimLen line line.length
      = if rstrip line = [] then none else some (rstrip line).length := by
  induction line using List.reverseRecOn with
  | nil => simp [trimLen, rstrip]
  | append_singleton init c ih =>
    have hlen : (init ++ [c]).length = init.length + 1 := by simp
    rw [hlen]
    simp only [trimLen, charAt_concat, isTerm_iff]
    by_cases hc : isTerm c = true
    · rw [if_pos hc, trimLen_append init [c] init.length (le_refl _), ih]
      simp only [rstrip, List.rdropWhile_concat_pos isTerm init c hc]
    · rw [if_neg hc]
      simp only [rstrip, List.rdropWhile_concat_neg isTerm init c hc]
      simp

theorem take_rstrip (line : List Char) : line.take (rstrip line).length = rstrip line :=
  (List.prefix_iff_eq_take.mp (List.rdropWhile_prefix isTerm line)).symm

/-- Trailing terminators are removed up to the last character that is not a
terminator. -/
theorem rstrip_append (init : List Char) (x : Char) (hx : isTerm x = false) (rest : List Char) :
    rstrip ((init ++ [x]) ++ rest) = (init ++ [x]) ++ rstrip rest := by
  induction rest using List.reverseRecOn with
  | nil =>
    simp only [List.append_nil, rstrip, List.rdropWhile_nil]
    exact List.rdropWhile_concat_neg isTerm init x (by simp [hx])
  | append_singleton r c ih =>
    rw [← List.append_assoc]
    by_cases hc : isTerm c = true
    · simp only [rstrip] at ih ⊢
      rw [List.rdropWhile_concat_pos isTerm _ c hc, List.rdropWhile_concat_pos isTerm _ c hc, ih]
    · simp only [rstrip]
      rw [List.rdropWhile_concat_neg isTerm _ c hc, List.rdropWhile_concat_neg isTerm _ c hc]
      simp

theorem rstrip_ne_nil_of_mem (line : List Char) (c : Char) (hc : c ∈ line)
    (hct : isTerm c = false) : rstrip line ≠ [] := by
  obtain ⟨a, b, rfl⟩ := List.append_of_mem hc
  have : a ++ c :: b = (a ++ [c]) ++ b := by simp
  rw [this, rstrip_append a c hct b]
  simp

theorem rstrip_eq_nil_iff (line : List Char) :
    rstrip line = [] ↔ ∀ c ∈ line, isTerm c = true := by
  constructor
  · intro h c hc
    by_contra hct
    exact rstrip_ne_nil_of_mem line c hc (by simpa using hct) h
  · intro h
    induction line using List.reverseRecOn with
    | nil => simp [rstrip]
    | append_singleton init c ih =>
      have hc := h c (by simp)
      simp only [rstrip, List.rdropWhile_concat_pos isTerm init c hc]
      exact ih (fun x hx => h x (by simp [hx]))

set_option maxRecDepth 100000 in
theorem fmtInt_length_fin : ∀ k : Fin 256, (fmtInt (k.val : Int)).length ≤ 3 := by
  decide

theorem fmtInt_length (i : Int) (h0 : 0 ≤ i) (h1 : i ≤ 255) : (fmtInt i).length ≤ 3 := by
  have := fmtInt_length_fin ⟨i.toNat, by omega⟩
  simpa [Int.toNat_of_nonneg h0] using this

theorem colorStart_length (c : Color) (hr : 0 ≤ c.r ∧ c.r ≤ 255) (hg : 0 ≤ c.g ∧ c.g ≤ 255)
    (hb : 0 ≤ c.b ∧ c.b ≤ 255) : (colorStart c).length ≤ 19 := by
  have h1 := fmtInt_length c.r hr.1 hr.2
  have h2 := fmtInt_length c.g hg.1 hg.2
  have h3 := fmtInt_length c.b hb.1 hb.2
  have h7 : "\x1b[38;2;".toList.length = 7 := by decide
  simp only [colorStart, List.length_append, List.length_singleton, h7]
  omega

theorem colorReset_length : colorReset.length = 4 := by decide

theorem builtText_plain (cfg : Config) (line : List Char)
    (hfind : findLevel cfg.levels line = none) (hne : rstrip line ≠ []) :
    builtText cfg line = some (rstrip line) := by
  have hlen : (rstrip line).length ≤ line.length := (List.rdropWhile_prefix isTerm line).length_le
  simp only [builtText, trimLen_eq, hne, if_false, lineBuffOf, hfind, take_rstrip]
  rw [if_pos (by omega)]

theorem builtText_wholeLine (cfg : Config) (line : List Char) (level : Level) (pos : Nat)
    (hmode : cfg.highlightLine = true) (hfind : findLevel cfg.levels line = some (level, pos))
    (hne : rstrip line ≠ []) (hwf : level.WellFormed) :
    builtText cfg line = some (colorStart level.color ++ rstrip line ++ colorReset) := by
  obtain ⟨_, h1, h2, h3, h4, h5, h6⟩ := hwf
  have hc := colorStart_length level.color ⟨h1, h2⟩ ⟨h3, h4⟩ ⟨h5, h6⟩
  simp only [builtText, trimLen_eq, hne, if_false, lineBuffOf, hfind, hmode, if_true, take_rstrip]
  rw [if_pos (by simp only [List.length_append, colorReset_length]; omega)]

/-- The line around the first occurrence of a marker that is not empty and has
no terminator in it: the occurrence lies inside the trimmed line. -/
theorem rstrip_around_marker (line marker : List Char) (pos : Nat)
    (hocc : marker <+: line.drop pos) (hne : marker ≠ [])
    (hnt : ∀ c ∈ marker, isTerm c = false) :
    pos + marker.length ≤ (rstrip line).length ∧ rstrip line ≠ []
    ∧ line.take pos ++ marker ++ line.drop (pos + marker.length) = line := by
  obtain ⟨rest, hrest⟩ := hocc
  have hpos : pos < line.length := by
    by_contra h
    rw [List.drop_eq_nil_of_le (by omega)] at hrest
    have : marker = [] := (List.append_eq_nil.mp hrest).1
    exact hne this
  have htake : (line.take pos).length = pos := by simp; omega
  have hline : line = line.take pos ++ (marker ++ rest) := by
    rw [hrest, List.take_append_drop]
  have hdrop : line.drop (pos + marker.length) = rest := by
    rw [← List.drop_drop, ← hrest, List.drop_left]
  rcases List.eq_nil_or_concat marker with h | ⟨init, x, h⟩
  · exact absurd h hne
  · rw [List.concat_eq_append] at h
    have hx : isTerm x = false := hnt x (by simp [h])
    have hform : line = ((line.take pos ++ init) ++ [x]) ++ rest := by
      rw [List.append_assoc, List.append_assoc, ← List.append_assoc init, ← h]
      exact hline
    have hstrip : rstrip line = ((line.take pos ++ init) ++ [x]) ++ rstrip rest := by
      conv_lhs => rw [hform]
      exact rstrip_append _ x hx rest
    have hmlen : marker.length = init.length + 1 := by simp [h]
    refine ⟨?_, ?_, ?_⟩
    · rw [hstrip]
      simp only [List.length_append, List.length_singleton, htake]
      omega
    · rw [hstrip]; simp
    · rw [hdrop, List.append_assoc]; exact hline.symm

theorem builtText_keyword (cfg : Config) (line : List Char) (level : Level) (pos : Nat)
    (hmode : cfg.highlightLine = false) (hfind : findLevel cfg.levels line = some (level, pos))
    (hocc : FirstOccAt level.textInLogFile line pos) (hpl : level.Plain) :
    builtText cfg line
      = some (line.take pos ++ colorStart level.color ++ level.textInLogFile ++ colorReset
          ++ (rstrip line).drop (pos + level.textInLogFile.length)) := by
  obtain ⟨⟨hne, h1, h2, h3, h4, h5, h6⟩, hnt⟩ := hpl
  have hc := colorStart_length level.color ⟨h1, h2⟩ ⟨h3, h4⟩ ⟨h5, h6⟩
  obtain ⟨hle, hrne, _⟩ := rstrip_around_marker line level.textInLogFile pos hocc.1 hne hnt
  have hlen : (rstrip line).length ≤ line.length := (List.rdropWhile_prefix isTerm line).length_le
  have hrest : List.take ((rstrip line).length - (pos + level.textInLogFile.length))
      (List.drop (pos + level.textInLogFile.length) line)
      = (rstrip line).drop (pos + level.textInLogFile.length) := by
    rw [← List.drop_take, take_rstrip]
  have hnlt : ¬ (rstrip line).length < pos + level.textInLogFile.length := by omega
  simp only [builtText, trimLen_eq, hrne, if_false, lineBuffOf, hfind, hmode, hnlt, hrest,
    Bool.false_eq_true]
  rw [if_pos]
  simp only [List.length_append, colorReset_length, List.length_take, List.length_drop]
  omega

/-- Whatever text `printColorfulLine` builds for a line with a matching rule,
it is built with that rule. -/
theorem builtText_form (cfg : Config) (line : List Char) (level : Level) (pos : Nat)
    (hfind : findLevel cfg.levels line = some (level, pos)) (t : List Char)
    (ht : builtText cfg line = some t) :
    t = if cfg.highlightLine then colorStart level.color ++ rstrip line ++ colorReset
        else line.take pos ++ colorStart level.color ++ level.textInLogFile ++ colorReset
          ++ (rstrip line).drop (pos + level.textInLogFile.length) := by
  by_cases hrne : rstrip line = []
  · simp [builtText, trimLen_eq, hrne] at ht
  · simp only [builtText, trimLen_eq, hrne, if_false, lineBuffOf, hfind, take_rstrip] at ht
    by_cases hmode : cfg.highlightLine = true
    · simp only [hmode, if_true] at ht ⊢
      split at ht
      · exact (Option.some.inj ht).symm
      · simp at ht
    · have hmode2 : cfg.highlightLine = false := by simpa using hmode
      simp only [hmode2, Bool.false_eq_true, if_false] at ht ⊢
      by_cases hlt : (rstrip line).length < pos + level.textInLogFile.length
      · simp [hlt] at ht
      · simp only [hlt, if_false] at ht
        rw [← List.drop_take, take_rstrip] at ht
        split at ht
        · exact (Option.some.inj ht).symm
        · simp at ht
/-! ## Lemmas on `printColorfulLine` as it runs in the readers -/

theorem findLevel_some_spec (line : List Char) : ∀ (levels : List Level) (level : Level)
    (pos : Nat), findLevel levels line = some (level, pos) →
    level ∈ levels ∧ strstr line level.textInLogFile = some pos := by
  intro levels
  induction levels with
  | nil => intro level pos h; simp [findLevel] at h
  | cons l ls ih =>
    intro level pos h
    cases hs : strstr line l.textInLogFile with
    | none =>
      simp only [findLevel, hs] at h
      obtain ⟨h1, h2⟩ := ih level pos h
      exact ⟨List.mem_cons_of_mem _ h1, h2⟩
    | some p =>
      simp only [findLevel, hs, Option.some.injEq, Prod.mk.injEq] at h
      obtain ⟨h1, h2⟩ := h
      subst h1; subst h2
      exact ⟨by simp, hs⟩

/-- The first occurrence of a marker without terminators ends inside the
trimmed line, also when the marker is empty. -/
theorem marker_inside_trimmed (line marker : List Char) (pos : Nat)
    (hocc : FirstOccAt marker line pos) (hnt : ∀ c ∈ marker, isTerm c = false) :
    pos + marker.length ≤ (rstrip line).length := by
  by_cases hne : marker = []
  · subst hne
    have hp : pos = 0 := by
      by_contra hpos
      exact hocc.2 0 (by omega) (by simp)
    subst hp
    simp
  · exact (rstrip_around_marker line marker pos hocc.1 hne hnt).1

theorem runTrimLen_append (l s : List Char) : ∀ k, k ≤ l.length →
    runTrimLen (l ++ s) k = runTrimLen l k := by
  intro k
  induction k with
  | zero => intro _; rfl
  | succ k ih =>
    intro hk
    simp only [runTrimLen, charAt_append_left l s k (by omega), ih (by omega)]

/-- On a buffer of the readers the trimming loop ends for every line, with the
length of the line without its trailing terminators. -/
theorem runTrimLen_eq (line : List Char) :
    runTrimLen line line.length = some (rstrip line).length := by
  induction line using List.reverseRecOn with
  | nil => simp [runTrimLen, rstrip, frontByte]
  | append_singleton init c ih =>
    have hlen : (init ++ [c]).length = init.length + 1 := by simp
    rw [hlen]
    simp only [runTrimLen, charAt_concat, isTerm_iff]
    by_cases hc : isTerm c = true
    · rw [if_pos hc, runTrimLen_append init [c] init.length (le_refl _), ih]
      simp only [rstrip, List.rdropWhile_concat_pos isTerm init c hc]
    · rw [if_neg hc]
      simp only [rstrip, List.rdropWhile_concat_neg isTerm init c hc]
      simp

theorem runBuiltText_eq (cfg : Config) (line : List Char) :
    runBuiltText cfg line = lineBuffOf cfg line (rstrip line).length := by
  simp only [runBuiltText, runTrimLen_eq]

theorem runPrintColorfulLine_eq (cfg : Config) (line : List Char) (num : Nat) :
    runPrintColorfulLine cfg line line.length num
      = (lineBuffOf cfg line (rstrip line).length).map
          (fun t => linePrefix cfg num ++ t ++ ['\n']) := by
  simp only [runPrintColorfulLine, runTrimLen_eq]
  cases lineBuffOf cfg line (rstrip line).length <;> rfl

/-- Where the trimming loop stays inside the line, the run on a buffer of the
readers builds the same text. -/
theorem runBuiltText_of_builtText (cfg : Config) (line t : List Char)
    (h : builtText cfg line = some t) : runBuiltText cfg line = some t := by
  rw [runBuiltText_eq]
  by_cases hne : rstrip line = []
  · simp [builtText, trimLen_eq, hne] at h
  · simpa only [builtText, trimLen_eq, hne, if_false] using h

theorem runTrimLen_of_trimLen (line : List Char) : ∀ (k n : Nat),
    trimLen line k = some n → runTrimLen line k = some n := by
  intro k
  induction k with
  | zero => intro n h; simp [trimLen] at h
  | succ k ih =>
    intro n h
    simp only [trimLen] at h
    simp only [runTrimLen]
    cases hc : charAt line k with
    | none => simp [hc] at h
    | some c =>
      simp only [hc] at h ⊢
      by_cases ht : c = '\n' ∨ c = '\r'
      · simp only [ht, if_true] at h ⊢
        exact ih n h
      · simp only [ht, if_false] at h ⊢
        exact h

/-- Where every read of the trimming loop stays inside the line, the call on a
buffer of the readers prints what `printColorfulLine` prints under the rules
of C. -/
theorem runPrintColorfulLine_of_printColorfulLine (cfg : Config) (line : List Char)
    (len num : Nat) (out : List Char) (h : printColorfulLine cfg line len num = some out) :
    runPrintColorfulLine cfg line len num = some out := by
  simp only [printColorfulLine] at h
  simp only [runPrintColorfulLine]
  cases ht : trimLen line len with
  | none => simp [ht] at h
  | some len1 =>
    simp only [ht] at h
    rw [runTrimLen_of_trimLen line len len1 ht]
    cases hb : lineBuffOf cfg line len1 with
    | none => simp [hb] at h
    | some buff =>
      simp only [hb] at h ⊢
      simpa only [linePrefix] using h

/-- With colour channels in `[0,255]` and markers without terminators, the
highlighting of a line cut at its trailing terminators stays inside `lineBuff`
and passes no negative count to `strncpy`. -/
theorem lineBuffOf_total (cfg : Config) (hT : TableOk cfg) (line : List Char) :
    ∃ t, lineBuffOf cfg line (rstrip line).length = some t := by
  have hlen : (rstrip line).length ≤ line.length := (List.rdropWhile_prefix isTerm line).length_le
  unfold lineBuffOf
  cases hf : findLevel cfg.levels line with
  | none =>
    refine ⟨rstrip line, ?_⟩
    simp only [take_rstrip]
    rw [if_pos (by omega)]
  | some r =>
    obtain ⟨level, pos⟩ := r
    obtain ⟨hmem, hs⟩ := findLevel_some_spec line cfg.levels level pos hf
    have hin := marker_inside_trimmed line level.textInLogFile pos
      (strstr_firstOcc _ _ _ hs) (hT level hmem).2
    obtain ⟨hr, hg, hb⟩ := (hT level hmem).1
    have hc := colorStart_length level.color hr hg hb
    by_cases hmode : cfg.highlightLine = true
    · refine ⟨colorStart level.color ++ rstrip line ++ colorReset, ?_⟩
      simp only [hmode, if_true, take_rstrip]
      rw [if_pos (by simp only [List.length_append, colorReset_length]; omega)]
    · have hnlt : ¬ (rstrip line).length < pos + level.textInLogFile.length := by omega
      have htl : (line.take pos ++ colorStart level.color ++ level.textInLogFile ++ colorReset
          ++ (line.drop (pos + level.textInLogFile.length)).take
              ((rstrip line).length - (pos + level.textInLogFile.length))).length
          = (rstrip line).length + (colorStart level.color).length + 4 := by
        simp only [List.length_append, colorReset_length, List.length_take,
          List.length_drop]
        omega
      refine ⟨line.take pos ++ colorStart level.color ++ level.textInLogFile ++ colorReset
          ++ (line.drop (pos + level.textInLogFile.length)).take
              ((rstrip line).length - (pos + level.textInLogFile.length)), ?_⟩
      simp only [hmode, Bool.false_eq_true, if_false, hnlt]
      rw [if_pos (by rw [htl]; omega)]

theorem runPrintColorfulLine_total (cfg : Config) (hT : TableOk cfg) (line : List Char)
    (num : Nat) : ∃ out, runPrintColorfulLine cfg line line.length num = some out := by
  obtain ⟨t, ht⟩ := lineBuffOf_total cfg hT line
  exact ⟨_, by rw [runPrintColorfulLine_eq, ht]; rfl⟩

theorem runCalls_total (cfg : Config) (hT : TableOk cfg) :
    ∀ calls : List Emit, ∃ out, runCalls cfg calls = some out := by
  intro calls
  induction calls with
  | nil => exact ⟨[], rfl⟩
  | cons e es ih =>
    obtain ⟨o1, h1⟩ := runPrintColorfulLine_total cfg hT e.line e.number
    obtain ⟨o2, h2⟩ := ih
    exact ⟨o1 ++ o2, by simp only [runCalls, h1, h2]⟩

/-! ## The readers on a table without terminators in its markers -/

theorem pollLoop_eq_readAll (cfg : Config) (hT : TableOk cfg) :
    ∀ (fuel : Nat) (rest : List Char) (num : Nat),
      pollLoop cfg fuel rest num
        = (readAll cfg.lineMaxLength fuel rest).map
            (fun bufs => (numbered num bufs, num + bufs.length)) := by
  intro fuel
  induction fuel with
  | zero => intro rest num; simp [pollLoop, readAll]
  | succ fuel ih =>
    intro rest num
    simp only [pollLoop, readAll]
    by_cases he : (fgets cfg.lineMaxLength rest).2.2 = true
    · simp [he, numbered]
    · simp only [he, Bool.false_eq_true, if_false]
      obtain ⟨out, hout⟩ := runPrintColorfulLine_total cfg hT (fgets cfg.lineMaxLength rest).1
        (num + 1)
      rw [hout, ih]
      cases hr : readAll cfg.lineMaxLength fuel (fgets cfg.lineMaxLength rest).2.1 with
      | none => simp
      | some bufs => simp [numbered]; omega

theorem printLastLines_eq (cfg : Config) (hT : TableOk cfg) (fuel : Nat) (file : List Char)
    (N : Nat) (num : Nat) (bufs : List (List Char)) (hN : N ≠ 0)
    (h : readAll cfg.lineMaxLength fuel file = some bufs) :
    printLastLines cfg fuel file N num
      = some ((numbered 0 bufs).drop (bufs.length - N), bufs.length, file.length) := by
  have hN2 : ¬ ((N : Int) = 0) := by exact_mod_cast hN
  have := lastLinesLoop_eq_readAll cfg.lineMaxLength N fuel file bufs [] h
  simp only [List.length_nil, numbered, List.drop_nil, List.nil_append] at this
  obtain ⟨out, hout⟩ := runCalls_total cfg hT ((numbered 0 bufs).drop (bufs.length - N))
  simp only [printLastLines, hN2, if_false, this, hout]

theorem pollStep_grow (cfg : Config) (hT : TableOk cfg) (fuel : Nat) (old new : List Char)
    (num : Nat) (bufs : List (List Char)) (hnew : new ≠ [])
    (h : readAll cfg.lineMaxLength fuel new = some bufs) :
    pollStep cfg fuel (old ++ new) ⟨old.length, num⟩
      = some ⟨none, numbered num bufs, ⟨(old ++ new).length, num + bufs.length⟩⟩ := by
  have hpos : 0 < new.length := List.length_pos.mpr hnew
  have h1 : ¬ ((old ++ new).length < old.length) := by simp
  have h2 : (old ++ new).length > old.length := by simp; omega
  have h3 : (old ++ new).length - ((old ++ new).length - old.length) = old.length := by
    simp
  simp only [pollStep, h1, h2, if_false, if_true, h3, List.drop_left,
    pollLoop_eq_readAll cfg hT, h, Option.map_some']



/-- C1 (as amended): with a level table whose colour channels lie in `[0,255]`
and whose markers contain no `'\n'` or `'\r'`, for a file made of
newline-terminated lines that each fit, terminator included, in
`lineMaxLength - 1` bytes, followed by an unterminated fragment that, if
present, is shorter than `lineMaxLength - 1` bytes, and for `N` at most the
number of terminated lines, `printLastLines(N)` calls `printColorfulLine`
exactly for the last `N` terminated lines, in file order, each with its
1-based index in the file, and every one of these calls runs to its end and
prints; the fragment is neither passed on nor counted, and the size of the
file is returned. -/
theorem printLastLines_emits_last_lines (cfg : Config) (lines : List (List Char))
    (frag : List Char) (N num0 fuel : Nat) (hT : TableOk cfg)
    (hlines : ∀ l ∈ lines, '\n' ∉ l ∧ (l.length : Int) + 1 ≤ cfg.lineMaxLength - 1)
    (hfrag : '\n' ∉ frag)
    (hfl : frag ≠ [] → (frag.length : Int) < cfg.lineMaxLength - 1)
    (hN : N ≤ lines.length) (hfuel : lines.length < fuel) :
    printLastLines cfg fuel (fileOf lines frag) N num0
      = some ((numbered 0 (lines.map (· ++ ['\n']))).drop (lines.length - N),
          (if N = 0 then num0 else lines.length), (fileOf lines frag).length)
    ∧ ∃ out, runCalls cfg ((numbered 0 (lines.map (· ++ ['\n']))).drop (lines.length - N))
        = some out := by
  refine ⟨?_, runCalls_total cfg hT _⟩
  by_cases h0 : N = 0
  · subst h0
    have hd : List.drop (lines.length - 0) (numbered 0 (lines.map (· ++ ['\n']))) = [] := by
      apply List.drop_eq_nil_of_le
      simp [numbered_length]
    rw [hd]
    simp [printLastLines]
  · have hne : lines ≠ [] := by
      intro h; subst h; simp at hN; exact h0 hN
    obtain ⟨l0, hl0⟩ := List.exists_mem_of_ne_nil lines hne
    have hk := (hlines l0 hl0).2
    have hfl2 : frag.length < (cfg.lineMaxLength - 1).toNat := by
      by_cases hf : frag = []
      · subst hf; simp only [List.length_nil]; omega
      · have := hfl hf; omega
    have hr := readAll_fileOf cfg.lineMaxLength frag hfrag hfl2 lines fuel
      (fun l hl => ⟨(hlines l hl).1, by have := (hlines l hl).2; omega⟩) hfuel
    have := printLastLines_eq cfg hT fuel (fileOf lines frag) N num0 _ h0 hr
    simpa [h0] using this

/-- Witness of C1: the file `[info] start`, `[error] boom`, `done` with `N = 2`
yields the lines 2 and 3, printed without their terminators, the marker
`[error]` in its colour. -/
theorem printLastLines_emits_last_lines_witness :
    TableOk defaultConfig
    ∧ (∀ l ∈ ["[info] start".toList, "[error] boom".toList, "done".toList],
        '\n' ∉ l ∧ (l.length : Int) + 1 ≤ defaultConfig.lineMaxLength - 1)
    ∧ (printLastLines defaultConfig 4 "[info] start\n[error] boom\ndone\n".toList 2 0
        = some ([⟨"[error] boom\n".toList, 2⟩, ⟨"done\n".toList, 3⟩], 3, 31)
      ∧ ∃ out, runCalls defaultConfig [⟨"[error] boom\n".toList, 2⟩, ⟨"done\n".toList, 3⟩]
        = some out)
    ∧ ([⟨"[error] boom\n".toList, 2⟩, ⟨"done\n".toList, 3⟩] : List Emit).map
          (fun e => (rstrip e.line, e.number))
        = [("[error] boom".toList, 2), ("done".toList, 3)]
    ∧ runCalls defaultConfig [⟨"[error] boom\n".toList, 2⟩, ⟨"done\n".toList, 3⟩]
        = some "\x1b[38;2;233;20;20m[error]\x1b[0m boom\ndone\n".toList :=
  ⟨by decide, by decide,
   printLastLines_emits_last_lines defaultConfig
     ["[info] start".toList, "[error] boom".toList, "done".toList] [] 2 0 4
     (by decide) (by decide) (by decide) (by decide) (by decide) (by decide),
   by decide, by decide⟩

/-- Counterexample to C1 as stated: with `lineMaxLength = 3` the file `x\nab`
has one terminated line of 2 bytes and a fragment of 2 bytes, both fitting in
`lineMaxLength - 1 = 2` bytes; `printLastLines(1)` passes on the fragment `ab`
as line 2 instead of the line `x` as line 1.  And with the marker `'\r'` for
`trace` in keyword mode, the file `a\r\n` of one line that fits has
`printLastLines(1)` not return, whatever the fuel: the call for that line
passes the count `-1` to `strncpy`. -/
theorem printLastLines_counts_full_fragment :
    ((∀ l ∈ ["x".toList], '\n' ∉ l ∧ (l.length : Int) + 1 ≤ cfgMax3.lineMaxLength - 1)
      ∧ '\n' ∉ "ab".toList ∧ ("ab".toList.length : Int) ≤ cfgMax3.lineMaxLength - 1
      ∧ "x\nab".toList = fileOf ["x".toList] "ab".toList
      ∧ printLastLines cfgMax3 10 "x\nab".toList 1 0 = some ([⟨"ab".toList, 2⟩], 2, 4)
      ∧ [(⟨"ab".toList, 2⟩ : Emit)]
          ≠ (numbered 0 (["x".toList].map (· ++ ['\n']))).drop (1 - 1))
    ∧ ((∀ l ∈ ["a\r".toList],
          '\n' ∉ l ∧ (l.length : Int) + 1 ≤ cfgCrKeyword.lineMaxLength - 1)
      ∧ "a\r\n".toList = fileOf ["a\r".toList] []
      ∧ lastLinesLoop cfgCrKeyword.lineMaxLength 1 2 "a\r\n".toList 0 []
          = some ([⟨"a\r\n".toList, 1⟩], 1)
      ∧ strncpyCounts cfgCrKeyword "a\r\n".toList 1 = [1, 1, -1]
      ∧ runPrintColorfulLine cfgCrKeyword "a\r\n".toList "a\r\n".toList.length 1 = none
      ∧ ∀ fuel, printLastLines cfgCrKeyword fuel "a\r\n".toList 1 0 = none) := by
  refine ⟨by decide, by decide, by decide, by decide, by decide, by decide, ?_⟩
  intro fuel
  match fuel with
  | 0 => decide
  | 1 => decide
  | fuel + 2 =>
    have h : lastLinesLoop cfgCrKeyword.lineMaxLength 1 (fuel + 2) "a\r\n".toList 0 []
        = some ([⟨"a\r\n".toList, 1⟩], 1) := by
      have := lastLinesLoop_eq_readAll cfgCrKeyword.lineMaxLength 1 (fuel + 2) "a\r\n".toList
        ["a\r\n".toList] []
        (readAll_fileOf cfgCrKeyword.lineMaxLength [] (by simp) (by decide) ["a\r".toList]
          (fuel + 2) (by decide) (by simp))
      simpa [numbered] using this
    have h2 : runCalls cfgCrKeyword [⟨"a\r\n".toList, 1⟩] = none := by decide
    unfold printLastLines
    rw [if_neg (by decide), h]
    simp only [h2]

/-- C3: when the size found by a round of the loop of `start` is smaller than
`lenLast`, the round ends the process with `exit(1)`; no line has been passed
to `printColorfulLine` and `lenLast` and `g_curr_line_num` are as before. -/
theorem pollStep_shrunk_exits (cfg : Config) (fuel : Nat) (file : List Char) (st : PollState)
    (h : file.length < st.lenLast) :
    pollStep cfg fuel file st = some ⟨some 1, [], st⟩ := by
  simp [pollStep, h]

/-- Witness of C3: the file had 10 bytes and now has 3. -/
theorem pollStep_shrunk_exits_witness :
    "ab\n".toList.length < (PollState.mk 10 4).lenLast
    ∧ pollStep defaultConfig 0 "ab\n".toList ⟨10, 4⟩ = some ⟨some 1, [], ⟨10, 4⟩⟩ :=
  ⟨by decide, pollStep_shrunk_exits defaultConfig 0 "ab\n".toList ⟨10, 4⟩ (by decide)⟩

theorem pollStep_lenLast (cfg : Config) (fuel : Nat) (file : List Char) (st : PollState)
    (r : PollResult) (h : pollStep cfg fuel file st = some r) (hex : r.exit = none) :
    r.state.lenLast = file.length := by
  unfold pollStep at h
  by_cases h1 : file.length < st.lenLast
  · simp [h1] at h; subst h; simp at hex
  · by_cases h2 : file.length > st.lenLast
    · simp only [h1, h2, if_false, if_true] at h
      split at h
      · simp at h
      · simp only [Option.some.injEq] at h; subst h; rfl
    · simp only [h1, h2, if_false] at h
      simp only [Option.some.injEq] at h; subst h
      simp only; omega

theorem pollStep_same_size (cfg : Config) (fuel : Nat) (file : List Char) (st : PollState)
    (h : st.lenLast = file.length) :
    pollStep cfg fuel file st = some ⟨none, [], st⟩ := by
  simp [pollStep, h]

/-- C4: from the state that a round of the loop of `start` leaves (the round
not having ended the process), a further round on the unchanged file passes no
line to `printColorfulLine` and leaves `lenLast` and `g_curr_line_num` as they
are, whatever the fuel; so does the round after it. -/
theorem pollStep_unchanged_file_idle (cfg : Config) (fuel fuel2 fuel3 : Nat) (file : List Char)
    (st : PollState) (r : PollResult)
    (h : pollStep cfg fuel file st = some r) (hex : r.exit = none) :
    pollStep cfg fuel2 file r.state = some ⟨none, [], r.state⟩
    ∧ pollRun cfg fuel3 r.state [file, file] = some ⟨none, [], r.state⟩ := by
  have hl := pollStep_lenLast cfg fuel file st r h hex
  have h1 := pollStep_same_size cfg fuel2 file r.state hl
  have h3 := pollStep_same_size cfg fuel3 file r.state hl
  refine ⟨h1, ?_⟩
  simp [pollRun, h3]

/-- Witness of C4: after the round that read `a\nb\n`, two more rounds on the
same content. -/
theorem pollStep_unchanged_file_idle_witness :
    pollStep defaultConfig 5 "a\nb\n".toList ⟨0, 0⟩
        = some ⟨none, [⟨"a\n".toList, 1⟩, ⟨"b\n".toList, 2⟩], ⟨4, 2⟩⟩
    ∧ pollStep defaultConfig 0 "a\nb\n".toList ⟨4, 2⟩ = some ⟨none, [], ⟨4, 2⟩⟩
    ∧ pollRun defaultConfig 0 ⟨4, 2⟩ ["a\nb\n".toList, "a\nb\n".toList]
        = some ⟨none, [], ⟨4, 2⟩⟩ :=
  ⟨by decide,
   pollStep_unchanged_file_idle defaultConfig 5 0 0 "a\nb\n".toList ⟨0, 0⟩
     ⟨none, [⟨"a\n".toList, 1⟩, ⟨"b\n".toList, 2⟩], ⟨4, 2⟩⟩ (by decide) rfl⟩

/-- C2, evaluated at the failing input: the file is empty at start-up, a first
round finds `ab` (no terminator yet), a second round finds `abc\n`.  The one
complete line appended is `abc`, but the only call of `printColorfulLine` in
the run is for `c`: the first round read the fragment `ab`, dropped it at the
`feof` test and still set `lenLast` to the size that includes it. -/
theorem start_loses_unterminated_fragment :
    start defaultConfig 10 [] ["ab".toList, "abc\n".toList]
        = some ⟨none, [⟨"c\n".toList, 1⟩], ⟨4, 1⟩⟩
    ∧ [(⟨"c\n".toList, 1⟩ : Emit)] ≠ numbered 0 ["abc\n".toList] := by
  decide

set_option maxRecDepth 100000 in
/-- Counterexample to C6 as stated: with `lineMaxLength = 500` a line of 600
characters is passed on by both readers as two lines, the first 499 characters
and then the remaining 101 with the terminator; it is not cut to one line of
500 characters. -/
theorem long_line_not_truncated :
    defaultConfig.lineMaxLength = 500
    ∧ pollStep defaultConfig 4 (List.replicate 600 'a' ++ ['\n']) ⟨0, 0⟩
        = some ⟨none, [⟨List.replicate 499 'a', 1⟩, ⟨List.replicate 101 'a' ++ ['\n'], 2⟩],
            ⟨601, 2⟩⟩
    ∧ printLastLines defaultConfig 4 (List.replicate 600 'a' ++ ['\n']) 20 0
        = some ([⟨List.replicate 499 'a', 1⟩, ⟨List.replicate 101 'a' ++ ['\n'], 2⟩], 2, 601)
    ∧ [⟨List.replicate 499 'a', 1⟩, ⟨List.replicate 101 'a' ++ ['\n'], 2⟩]
        ≠ [(⟨List.replicate 500 'a', 1⟩ : Emit)] := by
  decide

/-- C6 (as amended): with `lineMaxLength ≥ 2` and a level table whose colour
channels lie in `[0,255]` and whose markers contain no `'\n'` or `'\r'`, a
line of the file that is longer than `lineMaxLength` is not cut to one piece.
Whatever whole lines `A` stand in front of it and whatever bytes `B` follow
it, both readers read the file as the buffers of `A`, then two or more pieces
of the line, none longer than `lineMaxLength` characters and together the
whole line with its terminator, then the buffers of `B`.  The round of the
loop of `start` passes all of these buffers on, with consecutive numbers, so
no byte of the line is left out there.  `printLastLines(N)`, `N ≠ 0`, counts
every piece as a line: it passes on the last `N` of the buffers, each with its
index among the buffers, and so those pieces of the line that are among the
last `N` buffers; all of them when `N` is at least the number of buffers.
Every call made runs to its end and prints. -/
theorem long_line_is_split (cfg : Config) (old A l B : List Char) (num fuel N : Nat)
    (hT : TableOk cfg)
    (hn : 2 ≤ cfg.lineMaxLength) (hA : Terminated A) (_hl : '\n' ∉ l)
    (hlong : cfg.lineMaxLength < l.length)
    (hfuel : (A ++ ((l ++ ['\n']) ++ B)).length < fuel) (hN : N ≠ 0) :
    ∃ before pieces after : List (List Char),
      before.flatten = A ∧ pieces.flatten = l ++ ['\n'] ∧ 2 ≤ pieces.length
      ∧ (∀ b ∈ pieces, (b.length : Int) ≤ cfg.lineMaxLength)
      ∧ pollStep cfg fuel (old ++ (A ++ ((l ++ ['\n']) ++ B))) ⟨old.length, num⟩
          = some ⟨none, numbered num (before ++ (pieces ++ after)),
              ⟨(old ++ (A ++ ((l ++ ['\n']) ++ B))).length,
                num + (before ++ (pieces ++ after)).length⟩⟩
      ∧ printLastLines cfg fuel (A ++ ((l ++ ['\n']) ++ B)) N 0
          = some ((numbered 0 (before ++ (pieces ++ after))).drop
                ((before ++ (pieces ++ after)).length - N),
              (before ++ (pieces ++ after)).length, (A ++ ((l ++ ['\n']) ++ B)).length)
      ∧ ((before ++ (pieces ++ after)).length ≤ N →
          printLastLines cfg fuel (A ++ ((l ++ ['\n']) ++ B)) N 0
            = some (numbered 0 (before ++ (pieces ++ after)),
                (before ++ (pieces ++ after)).length, (A ++ ((l ++ ['\n']) ++ B)).length))
      ∧ (∃ out, runCalls cfg (numbered num (before ++ (pieces ++ after))) = some out)
      ∧ (∃ out, runCalls cfg ((numbered 0 (before ++ (pieces ++ after))).drop
                ((before ++ (pieces ++ after)).length - N)) = some out) := by
  have hk : 0 < (cfg.lineMaxLength - 1).toNat := by omega
  obtain ⟨after, _, hrB, _, _, _⟩ :=
    readAll_total cfg.lineMaxLength hk (B.length + 1) B (by omega)
  obtain ⟨pieces, hpf, hpb, hrL⟩ :=
    readAll_append cfg.lineMaxLength hk B after (B.length + 1) hrB
      ((l ++ ['\n']).length + (B.length + 1)) (l ++ ['\n']) (Or.inr ⟨l, rfl⟩) (le_refl _)
  obtain ⟨before, hbf, _, hrA⟩ :=
    readAll_append cfg.lineMaxLength hk ((l ++ ['\n']) ++ B) (pieces ++ after) _ hrL
      fuel A hA (by simp only [List.length_append] at hfuel ⊢; omega)
  have hpl := printLastLines_eq cfg hT fuel _ N 0 _ hN hrA
  refine ⟨before, pieces, after, hbf, hpf, ?_, ?_, ?_, hpl, ?_, runCalls_total cfg hT _,
    runCalls_total cfg hT _⟩
  · have hlen := congrArg List.length hpf
    simp only [List.length_append, List.length_singleton] at hlen
    match pieces, hpb, hlen with
    | [], _, hlen => simp at hlen
    | [b], hb, hlen =>
      have := (hb b (by simp)).1
      simp at hlen
      omega
    | _ :: _ :: _, _, _ => simp
  · intro b hbm
    have := (hpb b hbm).1
    omega
  · exact pollStep_grow cfg hT fuel old _ num _ (by simp) hrA
  · intro hall
    rw [hpl, Nat.sub_eq_zero_of_le hall, List.drop_zero]

/-- Witness of C6: `lineMaxLength = 3`, the line `abcdef` between the line `x`
and the fragment `y`; and `printLastLines(1)` on the line `abcdef` alone, which
passes on only the last of its four pieces, the terminator, as line 4. -/
theorem long_line_is_split_witness :
    TableOk cfgMax3
    ∧ (2 : Int) ≤ cfgMax3.lineMaxLength ∧ Terminated "x\n".toList ∧ '\n' ∉ "abcdef".toList
    ∧ cfgMax3.lineMaxLength < ("abcdef".toList.length : Int)
    ∧ (∃ before pieces after : List (List Char),
      before.flatten = "x\n".toList ∧ pieces.flatten = "abcdef".toList ++ ['\n']
      ∧ 2 ≤ pieces.length
      ∧ (∀ b ∈ pieces, (b.length : Int) ≤ cfgMax3.lineMaxLength)
      ∧ pollStep cfgMax3 12
            ("old\n".toList ++ ("x\n".toList ++ (("abcdef".toList ++ ['\n']) ++ "y".toList)))
            ⟨"old\n".toList.length, 1⟩
          = some ⟨none, numbered 1 (before ++ (pieces ++ after)),
              ⟨("old\n".toList
                  ++ ("x\n".toList ++ (("abcdef".toList ++ ['\n']) ++ "y".toList))).length,
                1 + (before ++ (pieces ++ after)).length⟩⟩
      ∧ printLastLines cfgMax3 12
            ("x\n".toList ++ (("abcdef".toList ++ ['\n']) ++ "y".toList)) 20 0
          = some ((numbered 0 (before ++ (pieces ++ after))).drop
                ((before ++ (pieces ++ after)).length - 20),
              (before ++ (pieces ++ after)).length,
              ("x\n".toList ++ (("abcdef".toList ++ ['\n']) ++ "y".toList)).length)
      ∧ ((before ++ (pieces ++ after)).length ≤ 20 →
          printLastLines cfgMax3 12
              ("x\n".toList ++ (("abcdef".toList ++ ['\n']) ++ "y".toList)) 20 0
            = some (numbered 0 (before ++ (pieces ++ after)),
                (before ++ (pieces ++ after)).length,
                ("x\n".toList ++ (("abcdef".toList ++ ['\n']) ++ "y".toList)).length))
      ∧ (∃ out, runCalls cfgMax3 (numbered 1 (before ++ (pieces ++ after))) = some out)
      ∧ (∃ out, runCalls cfgMax3 ((numbered 0 (before ++ (pieces ++ after))).drop
                ((before ++ (pieces ++ after)).length - 20)) = some out))
    ∧ pollStep cfgMax3 12 "abcdef\n".toList ⟨0, 0⟩
        = some ⟨none, [⟨"ab".toList, 1⟩, ⟨"cd".toList, 2⟩, ⟨"ef".toList, 3⟩, ⟨"\n".toList, 4⟩],
            ⟨7, 4⟩⟩
    ∧ printLastLines cfgMax3 12 "abcdef\n".toList 1 0 = some ([⟨"\n".toList, 4⟩], 4, 7) :=
  ⟨by decide, by decide, Or.inr ⟨"x".toList, by decide⟩, by decide, by decide,
   long_line_is_split cfgMax3 "old\n".toList "x\n".toList "abcdef".toList "y".toList 1 12 20
     (by decide) (by decide) (Or.inr ⟨"x".toList, by decide⟩) (by decide) (by decide)
     (by decide) (by decide),
   by decide, by decide⟩

/-- Counterexample to C7 as stated: with `lineMaxLength = 3` and tail count 0,
appending the single complete line `abc` makes the next round pass on two
lines, `ab` as line 1 and `c` as line 2.  And with the marker `'\r'` for
`trace` in keyword mode, appending the single complete line `a\r` gives a
round that does not come to its end, whatever the fuel: the call for that
line passes the count `-1` to `strncpy`, and `lenLast` is not set. -/
theorem append_long_line_two_emits :
    (printLastLines cfgMax3Tail0 10 [] cfgMax3Tail0.linesOfLast 0 = some ([], 0, 0)
      ∧ pollStep cfgMax3Tail0 10 "abc\n".toList ⟨0, 0⟩
          = some ⟨none, [⟨"ab".toList, 1⟩, ⟨"c\n".toList, 2⟩], ⟨4, 2⟩⟩
      ∧ [⟨"ab".toList, 1⟩, ⟨"c\n".toList, 2⟩] ≠ [(⟨"abc\n".toList, 1⟩ : Emit)])
    ∧ (printLastLines cfgCrKeyword 10 "x\n".toList 0 0 = some ([], 0, 2)
      ∧ fgets cfgCrKeyword.lineMaxLength "a\r\n".toList = ("a\r\n".toList, [], false)
      ∧ runPrintColorfulLine cfgCrKeyword "a\r\n".toList "a\r\n".toList.length 1 = none
      ∧ ∀ fuel, pollStep cfgCrKeyword fuel "x\na\r\n".toList ⟨2, 0⟩ = none) := by
  refine ⟨by decide, by decide, by decide, by decide, ?_⟩
  intro fuel
  match fuel with
  | 0 => decide
  | fuel + 1 =>
    have h1 : fgets cfgCrKeyword.lineMaxLength "a\r\n".toList = ("a\r\n".toList, [], false) := by
      decide
    have h2 : runPrintColorfulLine cfgCrKeyword "a\r\n".toList "a\r\n".toList.length 1
        = none := by decide
    have h3 : pollLoop cfgCrKeyword (fuel + 1) "a\r\n".toList 0 = none := by
      simp only [pollLoop, h1, Bool.false_eq_true, if_false, h2]
    have h4 : List.drop ("x\na\r\n".toList.length - ("x\na\r\n".toList.length - 2))
        "x\na\r\n".toList = "a\r\n".toList := by decide
    have h5 : ¬ ("x\na\r\n".toList.length < 2) := by decide
    have h6 : "x\na\r\n".toList.length > 2 := by decide
    simp only [pollStep, h5, h6, if_false, if_true, h4, h3]

/-- C7 (as amended): with a level table whose colour channels lie in `[0,255]`
and whose markers contain no `'\n'` or `'\r'`: for every initial content,
`printLastLines(0)` passes on no line, leaves `g_curr_line_num` at 0 and
returns the size of the file; if then one complete line `L` is appended that
fits, terminator included, in `lineMaxLength - 1` bytes, the next round of the
loop of `start` makes exactly one call of `printColorfulLine`, for the buffer
`L` with its terminator and the number 1, and sets `lenLast` to the new size.
That call runs to its end: its trimming loop cuts the buffer to `L` without
its trailing `'\n'` and `'\r'`, the highlighting builds its text `t` from the
buffer cut so, and `t` is printed after the line-number token. -/
theorem tail0_then_one_line (cfg : Config) (file L : List Char) (fuel : Nat)
    (hT : TableOk cfg)
    (hlast : cfg.linesOfLast = 0) (hL : '\n' ∉ L)
    (hfit : (L.length : Int) + 1 ≤ cfg.lineMaxLength - 1) (hfuel : 2 ≤ fuel) :
    printLastLines cfg fuel file cfg.linesOfLast 0 = some ([], 0, file.length)
    ∧ pollStep cfg fuel (file ++ (L ++ ['\n'])) ⟨file.length, 0⟩
        = some ⟨none, [⟨L ++ ['\n'], 1⟩], ⟨(file ++ (L ++ ['\n'])).length, 1⟩⟩
    ∧ start cfg fuel file [file ++ (L ++ ['\n'])]
        = some ⟨none, [⟨L ++ ['\n'], 1⟩], ⟨(file ++ (L ++ ['\n'])).length, 1⟩⟩
    ∧ runTrimLen (L ++ ['\n']) (L ++ ['\n']).length = some (rstrip L).length
    ∧ (L ++ ['\n']).take (rstrip L).length = rstrip L
    ∧ ∃ t, lineBuffOf cfg (L ++ ['\n']) (rstrip L).length = some t
        ∧ runPrintColorfulLine cfg (L ++ ['\n']) (L ++ ['\n']).length 1
            = some (linePrefix cfg 1 ++ t ++ ['\n']) := by
  have h1 : printLastLines cfg fuel file cfg.linesOfLast 0 = some ([], 0, file.length) := by
    simp [printLastLines, hlast]
  have hr := readAll_fileOf cfg.lineMaxLength [] (by simp) (by simp only [List.length_nil]; omega)
    [L] fuel (by intro l hl; simp at hl; subst hl; exact ⟨hL, by omega⟩) (by simpa using hfuel)
  have hf : fileOf [L] [] = L ++ ['\n'] := by simp [fileOf]
  rw [hf] at hr
  have h2 := pollStep_grow cfg hT fuel file (L ++ ['\n']) 0 _ (by simp) hr
  simp only [List.map_cons, List.map_nil, numbered, Nat.zero_add, List.length_singleton] at h2
  have hrs : rstrip (L ++ ['\n']) = rstrip L := by
    simp only [rstrip]
    exact List.rdropWhile_concat_pos isTerm L '\n' (by decide)
  have htr := runTrimLen_eq (L ++ ['\n'])
  have htk := take_rstrip (L ++ ['\n'])
  obtain ⟨t, ht⟩ := lineBuffOf_total cfg hT (L ++ ['\n'])
  have hrun := runPrintColorfulLine_eq cfg (L ++ ['\n']) 1
  rw [hrs] at htr htk ht hrun
  refine ⟨h1, h2, ?_, htr, htk, t, ht, ?_⟩
  · simp [start, h1, pollRun, h2]
  · rw [hrun, ht]; rfl

/-- Witness of C7: after tail count 0 on a file that ends in a fragment,
appending `[debug] x` with its terminator yields exactly that line, numbered 1,
and `printColorfulLine` prints it without the terminator. -/
theorem tail0_then_one_line_witness :
    TableOk cfgTail0 ∧ cfgTail0.linesOfLast = 0 ∧ '\n' ∉ "[debug] x".toList
    ∧ start cfgTail0 2 "old\nzz".toList ["old\nzz[debug] x\n".toList]
        = some ⟨none, [⟨"[debug] x\n".toList, 1⟩], ⟨16, 1⟩⟩
    ∧ rstrip "[debug] x".toList = "[debug] x".toList
    ∧ runPrintColorfulLine cfgTail0 "[debug] x\n".toList "[debug] x\n".toList.length 1
        = some "\x1b[38;2;90;220;200m[debug]\x1b[0m x\n".toList :=
  ⟨by decide, by decide, by decide,
   (tail0_then_one_line cfgTail0 "old\nzz".toList "[debug] x".toList 2
     (by decide) (by decide) (by decide) (by decide) (by decide)).2.2.1,
   by decide, by decide⟩

theorem wins_default_info (line : List Char) (hinfo : "[info]".toList <:+: line)
    (htrace : ¬ "[trace]".toList <:+: line) (hdebug : ¬ "[debug]".toList <:+: line) :
    Wins defaultConfig.levels line 2 infoLevel := by
  refine ⟨by decide, hinfo, ?_⟩
  intro j l hj hl
  match j, hj, hl with
  | 0, _, hl =>
    have : l = ⟨"trace".toList, "[trace]".toList, ⟨80, 220, 44⟩⟩ := by
      simpa [defaultConfig] using hl.symm
    subst this; exact htrace
  | 1, _, hl =>
    have : l = ⟨"debug".toList, "[debug]".toList, ⟨90, 220, 200⟩⟩ := by
      simpa [defaultConfig] using hl.symm
    subst this; exact hdebug

/-- C5: for every line and every level table, the rule that `printColorfulLine`
uses is the one with the smallest index whose marker occurs in the line as a
substring, wherever the markers stand in the line: the loop stops at that rule
with the offset of the first occurrence of its marker, any text built is
built with the colour of that rule, and text is built whenever the marker of
that rule is not empty, has no terminator in it and its colour is in range.
With the default table, a line that
contains `[info]` and `[error]` (and neither `[trace]` nor `[debug]`, the two
rules in front of `info`) is highlighted with the rule `info` only, in keyword
mode and in whole-line mode, also when `[error]` stands earlier in the line. -/
theorem highlight_rule_priority :
    (∀ (cfg : Config) (line : List Char) (i : Nat) (level : Level),
        Wins cfg.levels line i level →
        ∃ pos, findLevel cfg.levels line = some (level, pos)
          ∧ FirstOccAt level.textInLogFile line pos
          ∧ (∀ t, builtText cfg line = some t →
              t = if cfg.highlightLine then colorStart level.color ++ rstrip line ++ colorReset
                  else line.take pos ++ colorStart level.color ++ level.textInLogFile
                    ++ colorReset ++ (rstrip line).drop (pos + level.textInLogFile.length))
          ∧ (level.Plain → (builtText cfg line).isSome = true))
    ∧ (∀ line : List Char, "[info]".toList <:+: line → "[error]".toList <:+: line →
        ¬ "[trace]".toList <:+: line → ¬ "[debug]".toList <:+: line →
        ∃ pos, FirstOccAt "[info]".toList line pos
          ∧ builtText defaultConfig line
              = some (line.take pos ++ colorStart ⟨50, 150, 240⟩ ++ "[info]".toList
                  ++ colorReset ++ (rstrip line).drop (pos + 6))
          ∧ builtText cfgWholeLine line
              = some (colorStart ⟨50, 150, 240⟩ ++ rstrip line ++ colorReset)) := by
  constructor
  · intro cfg line i level hw
    obtain ⟨pos, hf, ho⟩ := findLevel_of_wins line cfg.levels i level hw
    refine ⟨pos, hf, ho, fun t ht => builtText_form cfg line level pos hf t ht, ?_⟩
    intro hpl
    by_cases hmode : cfg.highlightLine = true
    · have hr := (rstrip_around_marker line level.textInLogFile pos ho.1 hpl.1.1 hpl.2).2.1
      rw [builtText_wholeLine cfg line level pos hmode hf hr hpl.1]; rfl
    · rw [builtText_keyword cfg line level pos (by simpa using hmode) hf ho hpl]; rfl
  · intro line hinfo _ htrace hdebug
    have hw := wins_default_info line hinfo htrace hdebug
    obtain ⟨pos, hf, ho⟩ := findLevel_of_wins line defaultConfig.levels 2 infoLevel hw
    have hpl : infoLevel.Plain := by decide
    refine ⟨pos, ho, ?_, ?_⟩
    · exact builtText_keyword defaultConfig line infoLevel pos rfl hf ho hpl
    · have hr := (rstrip_around_marker line infoLevel.textInLogFile pos ho.1 hpl.1.1 hpl.2).2.1
      exact builtText_wholeLine cfgWholeLine line infoLevel pos rfl hf hr hpl.1

/-- Witness of C5: in `[error] x [info] y` the marker `[error]` stands first,
and the rule `info` (index 2) is used, not `error` (index 4). -/
theorem highlight_rule_priority_witness :
    Wins defaultConfig.levels "[error] x [info] y\n".toList 2 infoLevel
    ∧ (∃ pos, findLevel defaultConfig.levels "[error] x [info] y\n".toList = some (infoLevel, pos)
        ∧ FirstOccAt infoLevel.textInLogFile "[error] x [info] y\n".toList pos
        ∧ (∀ t, builtText defaultConfig "[error] x [info] y\n".toList = some t →
            t = if defaultConfig.highlightLine
                then colorStart infoLevel.color ++ rstrip "[error] x [info] y\n".toList
                  ++ colorReset
                else List.take pos "[error] x [info] y\n".toList ++ colorStart infoLevel.color
                  ++ infoLevel.textInLogFile ++ colorReset
                  ++ (rstrip "[error] x [info] y\n".toList).drop
                      (pos + infoLevel.textInLogFile.length))
        ∧ (infoLevel.Plain → (builtText defaultConfig "[error] x [info] y\n".toList).isSome = true))
    ∧ builtText defaultConfig "[error] x [info] y\n".toList
        = some ("[error] x ".toList ++ "\x1b[38;2;50;150;240m".toList ++ "[info]".toList
            ++ "\x1b[0m".toList ++ " y".toList) :=
  ⟨wins_default_info _ (by decide) (by decide) (by decide),
   highlight_rule_priority.1 defaultConfig "[error] x [info] y\n".toList 2 infoLevel
     (wins_default_info _ (by decide) (by decide) (by decide)),
   by decide⟩

/-- C8: in keyword mode, with a table whose markers are not empty and contain
no `'\n'` or `'\r'` (and whose colours are in range), for every line in which
some marker occurs the text built is: the line up to the first occurrence of
the marker of the winning rule, the colour escape of that rule, the marker,
the reset escape, and then what follows that occurrence in the line without
its trailing terminators.  Nothing else is inserted, and the parts around the
marker are those of the line itself. -/
theorem keyword_mode_text (cfg : Config) (line : List Char)
    (hmode : cfg.highlightLine = false) (hpl : ∀ l ∈ cfg.levels, l.Plain)
    (hocc : ∃ l ∈ cfg.levels, l.textInLogFile <:+: line) :
    ∃ i level pos, Wins cfg.levels line i level
      ∧ FirstOccAt level.textInLogFile line pos
      ∧ line.take pos ++ level.textInLogFile ++ line.drop (pos + level.textInLogFile.length)
          = line
      ∧ builtText cfg line
          = some (line.take pos ++ colorStart level.color ++ level.textInLogFile ++ colorReset
              ++ (rstrip line).drop (pos + level.textInLogFile.length)) := by
  obtain ⟨i, level, hw⟩ := wins_of_occurs line cfg.levels hocc
  obtain ⟨pos, hf, ho⟩ := findLevel_of_wins line cfg.levels i level hw
  have hl : level.Plain := hpl level (List.getElem?_mem hw.1)
  exact ⟨i, level, pos, hw, ho,
    (rstrip_around_marker line level.textInLogFile pos ho.1 hl.1.1 hl.2).2.2,
    builtText_keyword cfg line level pos hmode hf ho hl⟩

/-- Witness of C8: the default table and a line with two markers, the second
of them twice, ending in `\r\n`. -/
theorem keyword_mode_text_witness :
    defaultConfig.highlightLine = false ∧ (∀ l ∈ defaultConfig.levels, l.Plain)
    ∧ (∃ i level pos, Wins defaultConfig.levels "a [error] [info] [info]\r\n".toList i level
        ∧ FirstOccAt level.textInLogFile "a [error] [info] [info]\r\n".toList pos
        ∧ List.take pos "a [error] [info] [info]\r\n".toList ++ level.textInLogFile
            ++ List.drop (pos + level.textInLogFile.length) "a [error] [info] [info]\r\n".toList
            = "a [error] [info] [info]\r\n".toList
        ∧ builtText defaultConfig "a [error] [info] [info]\r\n".toList
            = some (List.take pos "a [error] [info] [info]\r\n".toList
                ++ colorStart level.color ++ level.textInLogFile ++ colorReset
                ++ (rstrip "a [error] [info] [info]\r\n".toList).drop
                    (pos + level.textInLogFile.length)))
    ∧ builtText defaultConfig "a [error] [info] [info]\r\n".toList
        = some ("a [error] ".toList ++ "\x1b[38;2;50;150;240m".toList ++ "[info]".toList
            ++ "\x1b[0m".toList ++ " [info]".toList) :=
  ⟨rfl, by decide,
   keyword_mode_text defaultConfig "a [error] [info] [info]\r\n".toList rfl (by decide)
     ⟨infoLevel, by decide, by decide⟩,
   by decide⟩

theorem builtText_eq_run (cfg : Config) (line : List Char) (hvis : ∃ c ∈ line, isTerm c = false) :
    builtText cfg line = runBuiltText cfg line := by
  obtain ⟨c, hc, hct⟩ := hvis
  have hne := rstrip_ne_nil_of_mem line c hc hct
  rw [runBuiltText_eq]
  simp only [builtText, trimLen_eq, hne, if_false]

theorem lineBuffOf_wholeLine (cfg : Config) (line : List Char) (level : Level) (pos : Nat)
    (hmode : cfg.highlightLine = true) (hfind : findLevel cfg.levels line = some (level, pos))
    (hcol : InByte level.color.r ∧ InByte level.color.g ∧ InByte level.color.b) :
    lineBuffOf cfg line (rstrip line).length
      = some (colorStart level.color ++ rstrip line ++ colorReset) := by
  have hc := colorStart_length level.color hcol.1 hcol.2.1 hcol.2.2
  simp only [lineBuffOf, hfind, hmode, if_true, take_rstrip]
  rw [if_pos (by simp only [List.length_append, colorReset_length]; omega)]

theorem lineBuffOf_plain (cfg : Config) (line : List Char)
    (hfind : findLevel cfg.levels line = none) :
    lineBuffOf cfg line (rstrip line).length = some (rstrip line) := by
  simp only [lineBuffOf, hfind, take_rstrip]
  rw [if_pos (by omega)]

/-- C9: in whole-line mode, with the colour channels of the table in `[0,255]`,
for every line in which the marker of some rule occurs, the text that
`printColorfulLine` builds when it runs on a buffer of the readers is the
colour escape `ESC[38;2;r;g;bm` of the winning rule, then the whole line
without its trailing `'\n'` and `'\r'`, then one reset escape `ESC[0m`, and
that text is what the call prints after the line-number token.  This holds
also for a line made of terminators only, on which the trimming loop reads the
byte in front of the buffer; for a line with any other character the same text
is built with every read inside the line. -/
theorem whole_line_mode_text (cfg : Config) (line : List Char)
    (hmode : cfg.highlightLine = true)
    (hcol : ∀ l ∈ cfg.levels, InByte l.color.r ∧ InByte l.color.g ∧ InByte l.color.b)
    (hocc : ∃ l ∈ cfg.levels, l.textInLogFile <:+: line) :
    ∃ i level, Wins cfg.levels line i level
      ∧ runBuiltText cfg line = some (colorStart level.color ++ rstrip line ++ colorReset)
      ∧ (∀ num, runPrintColorfulLine cfg line line.length num
          = some (linePrefix cfg num ++ (colorStart level.color ++ rstrip line ++ colorReset)
              ++ ['\n']))
      ∧ ((∃ c ∈ line, isTerm c = false) →
          builtText cfg line = some (colorStart level.color ++ rstrip line ++ colorReset)) := by
  obtain ⟨i, level, hw⟩ := wins_of_occurs line cfg.levels hocc
  obtain ⟨pos, hf, _⟩ := findLevel_of_wins line cfg.levels i level hw
  have hb := lineBuffOf_wholeLine cfg line level pos hmode hf (hcol level (List.getElem?_mem hw.1))
  have hrun : runBuiltText cfg line
      = some (colorStart level.color ++ rstrip line ++ colorReset) := by
    rw [runBuiltText_eq, hb]
  refine ⟨i, level, hw, hrun, ?_, ?_⟩
  · intro num
    rw [runPrintColorfulLine_eq, hb]; rfl
  · intro hvis
    rw [builtText_eq_run cfg line hvis, hrun]

/-- Witness of C9: whole-line mode, the marker of `trace` is `'\r'`, and the
line is `\r\n`, the empty line of a log with CRLF line ends: the text built is
the colour escape of `trace` and the reset escape around the empty line.  Also
the line `x [error] y` with CRLF under the default table. -/
theorem whole_line_mode_text_witness :
    cfgCrMarker.highlightLine = true
    ∧ (∀ l ∈ cfgCrMarker.levels, InByte l.color.r ∧ InByte l.color.g ∧ InByte l.color.b)
    ∧ (∃ i level, Wins cfgCrMarker.levels "\r\n".toList i level
        ∧ runBuiltText cfgCrMarker "\r\n".toList
            = some (colorStart level.color ++ rstrip "\r\n".toList ++ colorReset)
        ∧ (∀ num, runPrintColorfulLine cfgCrMarker "\r\n".toList "\r\n".toList.length num
            = some (linePrefix cfgCrMarker num
                ++ (colorStart level.color ++ rstrip "\r\n".toList ++ colorReset) ++ ['\n']))
        ∧ ((∃ c ∈ "\r\n".toList, isTerm c = false) →
            builtText cfgCrMarker "\r\n".toList
              = some (colorStart level.color ++ rstrip "\r\n".toList ++ colorReset)))
    ∧ runBuiltText cfgCrMarker "\r\n".toList = some "\x1b[38;2;80;220;44m\x1b[0m".toList
    ∧ runBuiltText cfgWholeLine "x [error] y\r\n".toList
        = some "\x1b[38;2;233;20;20mx [error] y\x1b[0m".toList
    ∧ builtText cfgWholeLine "x [error] y\r\n".toList
        = some "\x1b[38;2;233;20;20mx [error] y\x1b[0m".toList :=
  ⟨rfl, by decide,
   whole_line_mode_text cfgCrMarker "\r\n".toList rfl (by decide)
     ⟨⟨"trace".toList, ['\r'], ⟨80, 220, 44⟩⟩, by decide, by decide⟩,
   by decide, by decide, by decide⟩

/-- C10: for every line in which the marker of no rule occurs, in either mode
and with any table, the text that `printColorfulLine` builds when it runs on a
buffer of the readers is exactly the line without its trailing `'\n'` and
`'\r'`: a prefix of the line, with no escape character in it unless the line
has one, and this text is what the call prints after the line-number token.
This holds also for a line made of terminators only, on which the trimming
loop reads the byte in front of the buffer; for a line with any other
character the same text is built with every read inside the line. -/
theorem plain_line_text (cfg : Config) (line : List Char)
    (hnone : ∀ l ∈ cfg.levels, ¬ l.textInLogFile <:+: line) :
    runBuiltText cfg line = some (rstrip line)
    ∧ rstrip line <+: line
    ∧ ('\x1b' ∉ line → '\x1b' ∉ rstrip line)
    ∧ (∀ num, runPrintColorfulLine cfg line line.length num
        = some (linePrefix cfg num ++ rstrip line ++ ['\n']))
    ∧ ((∃ c ∈ line, isTerm c = false) → builtText cfg line = some (rstrip line)) := by
  have hf := (findLevel_eq_none_iff line cfg.levels).mpr hnone
  have hb := lineBuffOf_plain cfg line hf
  have hrun : runBuiltText cfg line = some (rstrip line) := by
    rw [runBuiltText_eq, hb]
  have hpre : rstrip line <+: line := List.rdropWhile_prefix isTerm line
  refine ⟨hrun, hpre, ?_, ?_, ?_⟩
  · intro h hm
    exact h (hpre.subset hm)
  · intro num
    rw [runPrintColorfulLine_eq, hb]; rfl
  · intro hvis
    rw [builtText_eq_run cfg line hvis, hrun]

/-- Witness of C10: the empty log line `\n` under the default table, in both
modes, and the line `plain text` with CRLF. -/
theorem plain_line_text_witness :
    (∀ l ∈ defaultConfig.levels, ¬ l.textInLogFile <:+: "\n".toList)
    ∧ (runBuiltText defaultConfig "\n".toList = some (rstrip "\n".toList)
      ∧ rstrip "\n".toList <+: "\n".toList
      ∧ ('\x1b' ∉ "\n".toList → '\x1b' ∉ rstrip "\n".toList)
      ∧ (∀ num, runPrintColorfulLine defaultConfig "\n".toList "\n".toList.length num
          = some (linePrefix defaultConfig num ++ rstrip "\n".toList ++ ['\n']))
      ∧ ((∃ c ∈ "\n".toList, isTerm c = false) →
          builtText defaultConfig "\n".toList = some (rstrip "\n".toList)))
    ∧ runBuiltText defaultConfig "\n".toList = some []
    ∧ runBuiltText cfgWholeLine "\n".toList = some []
    ∧ runPrintColorfulLine defaultConfig "\n".toList 1 1 = some ['\n']
    ∧ runBuiltText defaultConfig "plain text\r\n".toList = some "plain text".toList
    ∧ builtText cfgWholeLine "plain text\r\n".toList = some "plain text".toList :=
  ⟨by decide, plain_line_text defaultConfig "\n".toList (by decide),
   by decide, by decide, by decide, by decide, by decide⟩

/-! ## The configuration: option loop, `readConfig`, validation -/

/-- C11, evaluated at the failing input: in group `basic` the value `false` is
rejected for `highlight_line` and for `show_line_number` (the flag stays as it
is and `false` is returned), because the second test of each branch compares
`key`, not `value`, with `"false"`; the values `true`, `1` and `0` are
accepted as the claim says. -/
theorem bool_value_false_rejected :
    parseKeyValueOfConfig cfgWholeLine "basic".toList "highlight_line".toList "false".toList
        = (false, cfgWholeLine)
    ∧ parseKeyValueOfConfig cfgShowNumber "basic".toList "show_line_number".toList
          "false".toList
        = (false, cfgShowNumber)
    ∧ parseKeyValueOfConfig cfgWholeLine "basic".toList "highlight_line".toList "0".toList
        = (true, defaultConfig)
    ∧ parseKeyValueOfConfig cfgShowNumber "basic".toList "show_line_number".toList "0".toList
        = (true, defaultConfig)
    ∧ parseKeyValueOfConfig defaultConfig "basic".toList "highlight_line".toList "true".toList
        = (true, cfgWholeLine)
    ∧ parseKeyValueOfConfig defaultConfig "basic".toList "highlight_line".toList "1".toList
        = (true, cfgWholeLine)
    ∧ parseKeyValueOfConfig defaultConfig "basic".toList "show_line_number".toList
          "true".toList
        = (true, cfgShowNumber)
    ∧ parseKeyValueOfConfig defaultConfig "basic".toList "show_line_number".toList "1".toList
        = (true, cfgShowNumber) := by
  decide

theorem lastLinesLoop_no_buffer (n lines : Int) (hn : n ≤ 1) :
    ∀ (fuel : Nat) (rest : List Char) (num : Nat) (window : List Emit),
      lastLinesLoop n lines fuel rest num window = none := by
  have hk : (n - 1).toNat = 0 := by omega
  intro fuel
  induction fuel with
  | zero => intro rest num window; rfl
  | succ fuel ih =>
    intro rest num window
    simp only [lastLinesLoop, fgets, hk, fgetsAux, Bool.false_eq_true, if_false]
    exact ih _ _ _

/-- What the checks of `main` establish when they let the program go on. -/
theorem validateConfig_bounds (cfg cfg2 : Config) (h : validateConfig cfg = some cfg2) :
    0 ≤ cfg2.detectInterval ∧ 0 ≤ cfg2.linesOfLast ∧ cfg2.lineMaxLength ≤ 512
      ∧ cfg2.lineMaxLength = cfg.lineMaxLength := by
  obtain ⟨di, lm, ll, hl, sn, nc, lv⟩ := cfg
  simp only [validateConfig] at h
  by_cases h1 : di < 0 <;> by_cases h2 : ll < 0 <;> by_cases h3 : lm > 512 <;>
    simp only [h1, h2, h3, if_true, if_false, Option.some.injEq, reduceCtorEq] at h <;>
    subst h <;> dsimp only <;> omega

/-- C13, evaluated at the failing input: the option `-c c.ini`, where `c.ini`
holds the section `[basic]` with `line_max_length=0`, and one log file name.
The configuration is read, the checks of `main` pass, and `start()` is reached
with `lineMaxLength = 0`, so `0 < lineMaxLength` does not hold there; with
that value `printLastLines` never ends, whatever the file. -/
theorem main_starts_with_line_max_length_zero :
    main (oneFile "c.ini".toList "[basic]\nline_max_length=0\n".toList)
        [('c', "c.ini".toList)] ["app.log".toList]
      = some (.start cfgMax0 "app.log".toList)
    ∧ ¬ (0 < cfgMax0.lineMaxLength)
    ∧ ∀ (fuel : Nat) (file : List Char),
        printLastLines cfgMax0 fuel file cfgMax0.linesOfLast 0 = none := by
  refine ⟨by decide, by decide, ?_⟩
  intro fuel file
  have h := lastLinesLoop_no_buffer cfgMax0.lineMaxLength cfgMax0.linesOfLast (by decide)
    fuel file 0 []
  have h20 : ¬ (cfgMax0.linesOfLast = 0) := by decide
  simp only [printLastLines, h20, if_false, h]

/-- C18: in the `switch` of the option loop of `main`, the result `'i'` with the
argument `v` sets `detectInterval` to `atoi(v)` and, running on into the case
`'n'`, sets `linesOfLast` to `atoi(v)` as well; the result `'n'` with the
argument `v` sets `linesOfLast` to `atoi(v)` and nothing else, so that
`detectInterval` is as before.  Neither touches another field or
`configFileName`. -/
theorem interval_option_sets_lines_too (cfg : Config) (configFileName : Option (List Char))
    (v : List Char) :
    handleOption cfg configFileName 'i' v
        = .next { cfg with detectInterval := atoi v, linesOfLast := atoi v } configFileName
    ∧ handleOption cfg configFileName 'n' v
        = .next { cfg with linesOfLast := atoi v } configFileName
    ∧ ({ cfg with linesOfLast := atoi v } : Config).detectInterval = cfg.detectInterval := by
  refine ⟨?_, ?_, rfl⟩
  · simp [handleOption]
  · simp [handleOption]

/-- C19, evaluated at the failing input: the reader passes the empty log line
`\n` to `printColorfulLine` with `len = 1`; the trimming loop reads index 0,
takes `len` to 0 and then reads index -1, in front of the line.  The same
happens for `\r\n`. -/
theorem trim_loop_reads_in_front_of_blank_line :
    pollStep defaultConfig 3 "\n".toList ⟨0, 0⟩ = some ⟨none, [⟨"\n".toList, 1⟩], ⟨1, 1⟩⟩
    ∧ trimReads "\n".toList "\n".toList.length = [0, -1]
    ∧ trimLen "\n".toList "\n".toList.length = none
    ∧ trimReads "\r\n".toList "\r\n".toList.length = [1, 0, -1]
    ∧ trimLen "\r\n".toList "\r\n".toList.length = none := by
  decide

/-- The trimming loop, started at most at the length of the line, ends inside
the line exactly when it never reads the index -1. -/
theorem trimLen_isSome_iff (line : List Char) : ∀ k : Nat, k ≤ line.length →
    ((trimLen line k).isSome = true ↔ (-1 : Int) ∉ trimReads line k) := by
  intro k
  induction k with
  | zero => intro _; simp [trimLen, trimReads]
  | succ k ih =>
    intro hk
    have hlt : k < line.length := by omega
    have hc : charAt line k = some (line.get ⟨k, hlt⟩) := by simp [charAt, hlt]
    simp only [trimLen, trimReads, hc]
    by_cases ht : line.get ⟨k, hlt⟩ = '\n' ∨ line.get ⟨k, hlt⟩ = '\r'
    · simp only [ht, if_true, ih (by omega), List.mem_cons, not_or]
      constructor
      · intro h; exact ⟨by omega, h⟩
      · intro h; exact h.2
    · simp only [ht, if_false, Option.isSome_some, List.mem_singleton, true_iff]
      omega

/-- C20, evaluated at the failing input: the file `[basic]`, `lines_of_last=5`
is read with and without a newline after its last line.  With the newline the
key is applied; without it `readConfig` returns `true` and the configuration
is untouched.  Likewise the invalid last line `bogus` makes `readConfig`
return `false` only when a newline follows it. -/
theorem readConfig_skips_unterminated_last_line :
    readConfig defaultConfig (some "[basic]\nlines_of_last=5\n".toList)
        = some (true, { defaultConfig with linesOfLast := 5 })
    ∧ readConfig defaultConfig (some "[basic]\nlines_of_last=5".toList)
        = some (true, defaultConfig)
    ∧ readConfig defaultConfig (some "[basic]\nbogus\n".toList) = some (false, defaultConfig)
    ∧ readConfig defaultConfig (some "[basic]\nbogus".toList) = some (true, defaultConfig) := by
  decide

/-- Counterexample to C15 as stated: keyword mode, the marker of `trace` is
`'\r'` (a configuration file with CRLF line ends), and the file grows from
`old` and its newline (4 bytes, line counter 1) by the one line `a\r` with its
newline.  Both offsets are on line boundaries and the line fits.  The round
reads the line and passes it to `printColorfulLine`, whose trimming leaves
`len = 1` while the marker ends at offset 2: `strncpy` gets the count `-1`,
the call has no result, and the round never reaches `lenLast = lenThis`,
whatever the fuel. -/
theorem pollStep_cr_marker_no_result :
    Terminated "old\n".toList
    ∧ (∀ l ∈ ["a\r".toList],
        '\n' ∉ l ∧ (l.length : Int) + 1 ≤ cfgCrKeyword.lineMaxLength - 1)
    ∧ "old\na\r\n".toList = "old\n".toList ++ fileOf ["a\r".toList] []
    ∧ findLevel cfgCrKeyword.levels "a\r\n".toList
        = some (⟨"trace".toList, ['\r'], ⟨80, 220, 44⟩⟩, 1)
    ∧ runTrimLen "a\r\n".toList "a\r\n".toList.length = some 1
    ∧ strncpyCounts cfgCrKeyword "a\r\n".toList 1 = [1, 1, -1]
    ∧ runPrintColorfulLine cfgCrKeyword "a\r\n".toList "a\r\n".toList.length 2 = none
    ∧ ∀ fuel, pollStep cfgCrKeyword fuel "old\na\r\n".toList ⟨4, 1⟩ = none := by
  refine ⟨Or.inr ⟨"old".toList, by decide⟩, by decide, by decide, by decide, by decide,
    by decide, by decide, ?_⟩
  intro fuel
  match fuel with
  | 0 => decide
  | fuel + 1 =>
    have h1 : fgets cfgCrKeyword.lineMaxLength "a\r\n".toList = ("a\r\n".toList, [], false) := by
      decide
    have h2 : runPrintColorfulLine cfgCrKeyword "a\r\n".toList "a\r\n".toList.length 2
        = none := by decide
    have h3 : pollLoop cfgCrKeyword (fuel + 1) "a\r\n".toList 1 = none := by
      simp only [pollLoop, h1, Bool.false_eq_true, if_false, h2]
    have h4 : List.drop ("old\na\r\n".toList.length - ("old\na\r\n".toList.length - 4))
        "old\na\r\n".toList = "a\r\n".toList := by decide
    have h5 : ¬ ("old\na\r\n".toList.length < 4) := by decide
    have h6 : "old\na\r\n".toList.length > 4 := by decide
    simp only [pollStep, h5, h6, if_false, if_true, h4, h3]

/-- C15 (as amended): with a level table whose colour channels lie in `[0,255]`
and whose markers contain no `'\n'` or `'\r'`, in a round of the loop of
`start` that finds the file grown from `lastSize = old.length` to
`currentSize`, with both offsets on line boundaries (`old` is empty or ends
with a newline, the appended range is made of the terminated lines `lines`)
and every line of the range fitting, terminator included, in
`lineMaxLength - 1` bytes, the round passes exactly the lines of the range to
`printColorfulLine`, in order, numbered from the previous `g_curr_line_num`
plus one, every call runs to its end and prints, and the round then sets
`lenLast` to `currentSize`.  The bytes in front of `lastSize` play no part:
any other content of the same length there gives the same round. -/
theorem pollStep_emits_appended_lines (cfg : Config) (old : List Char)
    (lines : List (List Char)) (num fuel : Nat) (hT : TableOk cfg)
    (_hold : Terminated old) (hgrew : lines ≠ [])
    (hlines : ∀ l ∈ lines, '\n' ∉ l ∧ (l.length : Int) + 1 ≤ cfg.lineMaxLength - 1)
    (hfuel : lines.length < fuel) :
    pollStep cfg fuel (old ++ fileOf lines []) ⟨old.length, num⟩
        = some ⟨none, numbered num (lines.map (· ++ ['\n'])),
            ⟨(old ++ fileOf lines []).length, num + lines.length⟩⟩
    ∧ (∃ out, runCalls cfg (numbered num (lines.map (· ++ ['\n']))) = some out)
    ∧ ∀ other : List Char, other.length = old.length →
        pollStep cfg fuel (other ++ fileOf lines []) ⟨old.length, num⟩
          = some ⟨none, numbered num (lines.map (· ++ ['\n'])),
              ⟨(old ++ fileOf lines []).length, num + lines.length⟩⟩ := by
  obtain ⟨l0, hl0⟩ := List.exists_mem_of_ne_nil lines hgrew
  have hk := (hlines l0 hl0).2
  have hr := readAll_fileOf cfg.lineMaxLength [] (by simp)
    (by simp only [List.length_nil]; omega) lines fuel
    (fun l hl => ⟨(hlines l hl).1, by have := (hlines l hl).2; omega⟩) hfuel
  have hne : fileOf lines [] ≠ [] := by
    intro h
    have h1 := fileOf_length_ge lines []
    rw [h] at h1
    have h2 : 0 < lines.length := List.length_pos.mpr hgrew
    simp only [List.length_nil] at h1
    omega
  have hmain : ∀ other : List Char, other.length = old.length →
      pollStep cfg fuel (other ++ fileOf lines []) ⟨old.length, num⟩
        = some ⟨none, numbered num (lines.map (· ++ ['\n'])),
            ⟨(old ++ fileOf lines []).length, num + lines.length⟩⟩ := by
    intro other ho
    have h := pollStep_grow cfg hT fuel other (fileOf lines []) num _ hne hr
    rw [ho] at h
    simpa [ho] using h
  exact ⟨hmain old rfl, runCalls_total cfg hT _, hmain⟩

/-- Witness of C15: after `old` and its newline (4 bytes, 1 line) the lines
`a`, the empty line and `[info] b` are appended. -/
theorem pollStep_emits_appended_lines_witness :
    TableOk defaultConfig
    ∧ Terminated "old\n".toList
    ∧ (∀ l ∈ ["a".toList, [], "[info] b".toList],
        '\n' ∉ l ∧ (l.length : Int) + 1 ≤ defaultConfig.lineMaxLength - 1)
    ∧ pollStep defaultConfig 4 "old\na\n\n[info] b\n".toList ⟨4, 1⟩
        = some ⟨none, [⟨"a\n".toList, 2⟩, ⟨"\n".toList, 3⟩, ⟨"[info] b\n".toList, 4⟩], ⟨16, 4⟩⟩
    ∧ runCalls defaultConfig [⟨"a\n".toList, 2⟩, ⟨"\n".toList, 3⟩, ⟨"[info] b\n".toList, 4⟩]
        = some "a\n\n\x1b[38;2;50;150;240m[info]\x1b[0m b\n".toList :=
  ⟨by decide, Or.inr ⟨"old".toList, by decide⟩, by decide,
   (pollStep_emits_appended_lines defaultConfig "old\n".toList
     ["a".toList, [], "[info] b".toList] 1 4 (by decide)
     (Or.inr ⟨"old".toList, by decide⟩) (by decide) (by decide) (by decide)).1,
   by decide⟩

/-! ## Lines of a configuration file -/

theorem getline_line (l rest : List Char) (hl : '\n' ∉ l) :
    getline (l ++ '\n' :: rest) = some (l, rest) := by
  induction l with
  | nil => simp [getline]
  | cons c cs ih =>
    have hc : c ≠ '\n' := fun h => hl (by simp [h])
    have hcs : '\n' ∉ cs := fun h => hl (List.mem_cons_of_mem _ h)
    simp [getline, hc, ih hcs]

theorem getline_frag (f : List Char) (hf : '\n' ∉ f) : getline f = none := by
  induction f with
  | nil => rfl
  | cons c cs ih =>
    have hc : c ≠ '\n' := fun h => hf (by simp [h])
    have hcs : '\n' ∉ cs := fun h => hf (List.mem_cons_of_mem _ h)
    simp [getline, hc, ih hcs]

theorem getlinesAux_fileOf (frag : List Char) (hfrag : '\n' ∉ frag) :
    ∀ (lines : List (List Char)) (fuel : Nat), (∀ l ∈ lines, '\n' ∉ l) → lines.length ≤ fuel →
      getlinesAux fuel (fileOf lines frag) = lines := by
  intro lines
  induction lines with
  | nil =>
    intro fuel _ _
    have hf : fileOf [] frag = frag := by simp [fileOf]
    cases fuel with
    | zero => rfl
    | succ fuel => simp [getlinesAux, hf, getline_frag frag hfrag]
  | cons l ls ih =>
    intro fuel hls hfuel
    obtain ⟨fuel, rfl⟩ : ∃ j, fuel = j + 1 := ⟨fuel - 1, by simp at hfuel; omega⟩
    have hrest : fileOf (l :: ls) frag = l ++ '\n' :: fileOf ls frag := by simp [fileOf]
    have h1 := ih fuel (fun x hx => hls x (List.mem_cons_of_mem _ hx)) (by simp at hfuel; omega)
    simp [getlinesAux, hrest, getline_line l _ (hls l (by simp)), h1]

/-- The loops of `readConfig` see the newline-terminated lines of the file and
nothing of what follows the last newline. -/
theorem getlines_fileOf (lines : List (List Char)) (frag : List Char)
    (hlines : ∀ l ∈ lines, '\n' ∉ l) (hfrag : '\n' ∉ frag) :
    getlines (fileOf lines frag) = lines :=
  getlinesAux_fileOf frag hfrag lines _ hlines (fileOf_length_ge lines frag)

/-- Whatever stands after the last newline of a configuration file is without
effect: the file is read as if it ended at that newline. -/
theorem readConfig_ignores_unterminated_line (cfg : Config) (lines : List (List Char))
    (frag : List Char) (hlines : ∀ l ∈ lines, '\n' ∉ l) (hfrag : '\n' ∉ frag) :
    readConfig cfg (some (fileOf lines frag)) = readConfig cfg (some (fileOf lines [])) := by
  simp only [readConfig, getlines_fileOf lines frag hlines hfrag,
    getlines_fileOf lines [] hlines (by simp)]

/-! ## `parseColor` and `parseKeyValueOfConfig` -/

theorem strstr_single_append (c : Char) (rest : List Char) : ∀ f : List Char, c ∉ f →
    strstr (f ++ c :: rest) [c] = some f.length := by
  intro f
  induction f with
  | nil => intro _; simp [strstr, List.isPrefixOf]
  | cons x xs ih =>
    intro h
    have hx : ¬ c = x := fun e => h (by simp [e])
    have hxs : c ∉ xs := fun e => h (List.mem_cons_of_mem _ e)
    simp [strstr, List.isPrefixOf, hx, ih hxs]

theorem strstr_single_none (c : Char) : ∀ s : List Char, c ∉ s → strstr s [c] = none := by
  intro s
  induction s with
  | nil => intro _; simp [strstr]
  | cons x xs ih =>
    intro h
    have hx : ¬ c = x := fun e => h (by simp [e])
    have hxs : c ∉ xs := fun e => h (List.mem_cons_of_mem _ e)
    simp [strstr, List.isPrefixOf, hx, ih hxs]

theorem split_at_first (c : Char) : ∀ s : List Char,
    c ∉ s ∨ ∃ f rest, s = f ++ c :: rest ∧ c ∉ f := by
  intro s
  induction s with
  | nil => exact Or.inl (by simp)
  | cons x xs ih =>
    by_cases hx : c = x
    · exact Or.inr ⟨[], xs, by simp [hx], by simp⟩
    · rcases ih with h | ⟨f, rest, h1, h2⟩
      · exact Or.inl (by simp [hx, h])
      · exact Or.inr ⟨x :: f, rest, by simp [h1], by simp [hx, h2]⟩

theorem sfind_first (c : Char) (f rest : List Char) (hf : c ∉ f) :
    sfind (f ++ c :: rest) [c] 0 = some f.length := by
  simp [sfind, strstr_single_append c rest f hf]

theorem sfind_second (c : Char) (f1 f2 f3 : List Char) (h2 : c ∉ f2) :
    sfind (f1 ++ c :: (f2 ++ c :: f3)) [c] (f1.length + 1) = some (f2.length + (f1.length + 1)) := by
  have hd : List.drop (f1.length + 1) (f1 ++ c :: (f2 ++ c :: f3)) = f2 ++ c :: f3 := by
    rw [show f1 ++ c :: (f2 ++ c :: f3) = (f1 ++ [c]) ++ (f2 ++ c :: f3) by simp]
    rw [show f1.length + 1 = (f1 ++ [c]).length by simp, List.drop_left]
  have hle : f1.length + 1 ≤ (f1 ++ c :: (f2 ++ c :: f3)).length := by simp
  simp only [sfind, hle, if_true, hd, strstr_single_append c f3 f2 h2, Option.map_some']

/-- The function `parseColor` on a value with its three fields. -/
theorem parseColor_fields (value : List Char) (color : Color) (f1 f2 f3 : List Char)
    (h : ColorFields value f1 f2 f3) :
    parseColor value color
      = if InByte (atoi f1) ∧ InByte (atoi f2) ∧ InByte (atoi f3)
        then (true, ⟨atoi f1, atoi f2, atoi f3⟩) else (false, color) := by
  obtain ⟨hv, h1, h2⟩ := h
  subst hv
  have ht1 : List.take f1.length (f1 ++ ',' :: (f2 ++ ',' :: f3)) = f1 := List.take_left _ _
  have hd1 : List.drop (f1.length + 1) (f1 ++ ',' :: (f2 ++ ',' :: f3)) = f2 ++ ',' :: f3 := by
    rw [show f1 ++ ',' :: (f2 ++ ',' :: f3) = (f1 ++ [',']) ++ (f2 ++ ',' :: f3) by simp]
    rw [show f1.length + 1 = (f1 ++ [',']).length by simp, List.drop_left]
  have ht2 : List.take (f2.length + (f1.length + 1) - f1.length - 1) (f2 ++ ',' :: f3) = f2 := by
    rw [show f2.length + (f1.length + 1) - f1.length - 1 = f2.length by omega]
    exact List.take_left _ _
  have hd2 : List.drop (f2.length + (f1.length + 1) + 1) (f1 ++ ',' :: (f2 ++ ',' :: f3))
      = f3 := by
    rw [show f1 ++ ',' :: (f2 ++ ',' :: f3) = (f1 ++ ',' :: (f2 ++ [','])) ++ f3 by simp]
    rw [show f2.length + (f1.length + 1) + 1 = (f1 ++ ',' :: (f2 ++ [','])).length by
      simp; omega]
    exact List.drop_left _ _
  simp only [parseColor, sfind_first ',' f1 _ h1, sfind_second ',' f1 f2 f3 h2, ht1, hd1, ht2,
    hd2, InByte]
  by_cases hr : 0 ≤ atoi f1 ∧ atoi f1 ≤ 255 <;> by_cases hg : 0 ≤ atoi f2 ∧ atoi f2 ≤ 255 <;>
    by_cases hb : 0 ≤ atoi f3 ∧ atoi f3 ≤ 255
  · have hc : ¬ (atoi f1 < 0 ∨ atoi f1 > 255 ∨ atoi f2 < 0 ∨ atoi f2 > 255 ∨ atoi f3 < 0
        ∨ atoi f3 > 255) := by omega
    rw [if_neg hc, if_pos ⟨hr, hg, hb⟩]
  all_goals
    have hc : atoi f1 < 0 ∨ atoi f1 > 255 ∨ atoi f2 < 0 ∨ atoi f2 > 255 ∨ atoi f3 < 0
        ∨ atoi f3 > 255 := by omega
    rw [if_pos hc, if_neg (by intro hh; obtain ⟨a, b, c⟩ := hh; first | exact hr a | exact hg b | exact hb c)]

/-- The function `parseColor` on a value with fewer than two commas. -/
theorem parseColor_no_fields (value : List Char) (color : Color)
    (h : ¬ ∃ f1 f2 f3, ColorFields value f1 f2 f3) :
    parseColor value color = (false, color) := by
  rcases split_at_first ',' value with h1 | ⟨f1, rest, hv, hf1⟩
  · simp [parseColor, sfind, strstr_single_none ',' value h1]
  · subst hv
    rcases split_at_first ',' rest with h2 | ⟨f2, f3, hr, hf2⟩
    · have hd : List.drop (f1.length + 1) (f1 ++ ',' :: rest) = rest := by
        rw [show f1 ++ ',' :: rest = (f1 ++ [',']) ++ rest by simp]
        rw [show f1.length + 1 = (f1 ++ [',']).length by simp, List.drop_left]
      have hle : f1.length + 1 ≤ (f1 ++ ',' :: rest).length := by simp
      have hs2 : sfind (f1 ++ ',' :: rest) [','] (f1.length + 1) = none := by
        simp only [sfind, hle, if_true, hd, strstr_single_none ',' rest h2, Option.map_none']
      simp only [parseColor, sfind_first ',' f1 rest hf1, hs2]
    · subst hr
      exact absurd ⟨f1, f2, f3, rfl, hf1, hf2⟩ h

/-- Counterexample to C12 as stated: `parseColor` returns `true` for strings
that are not three comma-separated decimal integers: for `a,b,c` and `,,`
(every field reads as 0), for `1,2,3,4` (four fields, the colour becomes
1,2,3) and for `7x, +8 ,9.5` (the colour becomes 7,8,9). -/
theorem parseColor_accepts_malformed :
    parseColor "a,b,c".toList ⟨9, 9, 9⟩ = (true, ⟨0, 0, 0⟩)
    ∧ parseColor ",,".toList ⟨9, 9, 9⟩ = (true, ⟨0, 0, 0⟩)
    ∧ parseColor "1,2,3,4".toList ⟨9, 9, 9⟩ = (true, ⟨1, 2, 3⟩)
    ∧ parseColor "7x, +8 ,9.5".toList ⟨9, 9, 9⟩ = (true, ⟨7, 8, 9⟩) := by
  decide

/-- C12 (as amended): `parseColor` returns `true` exactly for the strings that
have two commas at least and whose three fields (in front of the first comma,
between the first and the second, after the second), each read by `atoi`,
give values in `[0,255]`; the colour is then set to those three values.  For
every other string (fewer than two commas, or a field whose `atoi` value is
outside `[0,255]`) it returns `false` and leaves the colour as it is. -/
theorem parseColor_by_atoi (value : List Char) (color : Color) :
    (∀ f1 f2 f3, ColorFields value f1 f2 f3 →
        parseColor value color
          = if InByte (atoi f1) ∧ InByte (atoi f2) ∧ InByte (atoi f3)
            then (true, ⟨atoi f1, atoi f2, atoi f3⟩) else (false, color))
    ∧ ((¬ ∃ f1 f2 f3, ColorFields value f1 f2 f3) → parseColor value color = (false, color)) :=
  ⟨fun f1 f2 f3 h => parseColor_fields value color f1 f2 f3 h,
   fun h => parseColor_no_fields value color h⟩

/-- Witness of C12: the value `12,0,255` with the fields `12`, `0`, `255`. -/
theorem parseColor_by_atoi_witness :
    ColorFields "12,0,255".toList "12".toList "0".toList "255".toList
    ∧ parseColor "12,0,255".toList ⟨9, 9, 9⟩
        = (if InByte (atoi "12".toList) ∧ InByte (atoi "0".toList) ∧ InByte (atoi "255".toList)
          then (true, ⟨atoi "12".toList, atoi "0".toList, atoi "255".toList⟩)
          else (false, ⟨9, 9, 9⟩))
    ∧ parseColor "12,0,255".toList ⟨9, 9, 9⟩ = (true, ⟨12, 0, 255⟩)
    ∧ parseColor "12,0,256".toList ⟨9, 9, 9⟩ = (false, ⟨9, 9, 9⟩)
    ∧ parseColor "12,0".toList ⟨9, 9, 9⟩ = (false, ⟨9, 9, 9⟩) :=
  ⟨⟨by decide, by decide, by decide⟩,
   (parseColor_by_atoi "12,0,255".toList ⟨9, 9, 9⟩).1 "12".toList "0".toList "255".toList
     ⟨by decide, by decide, by decide⟩,
   by decide, by decide, by decide⟩

theorem parseColor_of_channelOutOfRange (value : List Char) (color : Color)
    (h : ChannelOutOfRange value) : parseColor value color = (false, color) := by
  obtain ⟨f1, f2, f3, hf, hbad⟩ := h
  rw [parseColor_fields value color f1 f2 f3 hf, if_neg hbad]

theorem parseColor_inByte (value : List Char) (color : Color)
    (h : InByte color.r ∧ InByte color.g ∧ InByte color.b) :
    InByte (parseColor value color).2.r ∧ InByte (parseColor value color).2.g
      ∧ InByte (parseColor value color).2.b := by
  by_cases hf : ∃ f1 f2 f3, ColorFields value f1 f2 f3
  · obtain ⟨f1, f2, f3, hf⟩ := hf
    rw [parseColor_fields value color f1 f2 f3 hf]
    by_cases hin : InByte (atoi f1) ∧ InByte (atoi f2) ∧ InByte (atoi f3)
    · rw [if_pos hin]; exact hin
    · rw [if_neg hin]; exact h
  · rw [parseColor_no_fields value color hf]; exact h

theorem parseLevelKey_none (group key value : List Char) : ∀ levels : List Level,
    group ∉ levels.map (·.groupName) → parseLevelKey group key value levels = none := by
  intro levels
  induction levels with
  | nil => intro _; rfl
  | cons l ls ih =>
    intro h
    simp only [List.map_cons, List.mem_cons, not_or] at h
    simp only [parseLevelKey, h.1, if_false, ih h.2]

theorem parseLevelKey_other_key (group key value : List Char)
    (hc : key ≠ "color".toList) (ht : key ≠ "text".toList) : ∀ levels : List Level,
    group ∈ levels.map (·.groupName) →
    parseLevelKey group key value levels = some (false, levels) := by
  intro levels
  induction levels with
  | nil => intro h; simp at h
  | cons l ls ih =>
    intro h
    by_cases hg : group = l.groupName
    · simp only [parseLevelKey, hg, if_true, hc, ht, if_false]
    · have h2 : group ∈ ls.map (·.groupName) := by
        simp only [List.map_cons, List.mem_cons] at h
        rcases h with h | h
        · exact absurd h hg
        · exact h
      simp only [parseLevelKey, hg, if_false, ih h2]

theorem parseLevelKey_bad_color (group value : List Char)
    (hbad : ∀ c : Color, parseColor value c = (false, c)) : ∀ levels : List Level,
    group ∈ levels.map (·.groupName) →
    parseLevelKey group "color".toList value levels = some (false, levels) := by
  intro levels
  induction levels with
  | nil => intro h; simp at h
  | cons l ls ih =>
    intro h
    by_cases hg : group = l.groupName
    · simp only [parseLevelKey, hg, if_true, hbad l.color]
    · have h2 : group ∈ ls.map (·.groupName) := by
        simp only [List.map_cons, List.mem_cons] at h
        rcases h with h | h
        · exact absurd h hg
        · exact h
      simp only [parseLevelKey, hg, if_false, ih h2]

/-- Counterexample to C14 as stated: the value `4294967296,0,0` of the key
`color` in the group `error` has the channel 4294967296, outside `[0,255]`;
`atoi` reads it as 0 (the `long` that `strtol` returns, converted to `int`),
so `parseKeyValueOfConfig` returns `true` and sets the colour of `error` to
0, 0, 0 instead of returning `false` with the configuration unchanged. -/
theorem parseKeyValueOfConfig_accepts_wrapped_channel :
    ColorFields "4294967296,0,0".toList "4294967296".toList "0".toList "0".toList
    ∧ digitsValue 0 "4294967296".toList = 4294967296
    ∧ ¬ InByte (digitsValue 0 "4294967296".toList : Int)
    ∧ strtol "4294967296".toList = 4294967296
    ∧ atoi "4294967296".toList = 0
    ∧ parseColor "4294967296,0,0".toList ⟨233, 20, 20⟩ = (true, ⟨0, 0, 0⟩)
    ∧ (parseKeyValueOfConfig defaultConfig "error".toList "color".toList
          "4294967296,0,0".toList).1 = true
    ∧ (parseKeyValueOfConfig defaultConfig "error".toList "color".toList
          "4294967296,0,0".toList).2.levels[4]?
        = some ⟨"error".toList, "[error]".toList, ⟨0, 0, 0⟩⟩
    ∧ defaultConfig.levels[4]? = some ⟨"error".toList, "[error]".toList, ⟨233, 20, 20⟩⟩
    ∧ parseKeyValueOfConfig defaultConfig "error".toList "color".toList "4294967296,0,0".toList
        ≠ (false, defaultConfig) := by
  refine ⟨⟨by decide, by decide, by decide⟩, by decide, by decide, by decide, by decide,
    by decide, by decide, by decide, by decide, ?_⟩
  intro h
  have h1 : (parseKeyValueOfConfig defaultConfig "error".toList "color".toList
      "4294967296,0,0".toList).1 = true := by decide
  rw [h] at h1
  exact absurd h1 (by decide)

/-- C14 (as amended): with the six level groups in the table,
`parseKeyValueOfConfig` returns `false` and leaves the whole configuration as
it is whenever the key or the value is empty, the group is neither a level
group nor `basic`, the group is a level group and the key is neither `color`
nor `text`, the group is `basic` and the key is none of its six keys, or the
key is a colour key (`color` in a level group, `line_number_color` in `basic`)
and one of the three fields of the value is read by `atoi` as a number outside
`[0,255]` (or the value has no three fields at all). -/
theorem parseKeyValueOfConfig_rejects (cfg : Config) (group key value : List Char)
    (hnames : cfg.levels.map (·.groupName) = levelNames)
    (h : key = [] ∨ value = []
      ∨ (group ∉ levelNames ∧ group ≠ "basic".toList)
      ∨ (group ∈ levelNames ∧ key ≠ "color".toList ∧ key ≠ "text".toList)
      ∨ (group = "basic".toList ∧ key ∉ basicKeys)
      ∨ (((group ∈ levelNames ∧ key = "color".toList)
            ∨ (group = "basic".toList ∧ key = "line_number_color".toList))
          ∧ (ChannelOutOfRange value ∨ ¬ ∃ f1 f2 f3, ColorFields value f1 f2 f3))) :
    parseKeyValueOfConfig cfg group key value = (false, cfg) := by
  by_cases hkv : key = [] ∨ value = []
  · simp only [parseKeyValueOfConfig, hkv, if_true]
  · have hbasic : "basic".toList ∉ cfg.levels.map (·.groupName) := by
      rw [hnames]; decide
    rcases h with h | h | h | h | h | h
    · exact absurd (Or.inl h) hkv
    · exact absurd (Or.inr h) hkv
    · obtain ⟨h1, h2⟩ := h
      rw [← hnames] at h1
      simp only [parseKeyValueOfConfig, hkv, if_false, parseLevelKey_none group key value _ h1,
        h2]
    · obtain ⟨h1, h2, h3⟩ := h
      rw [← hnames] at h1
      simp only [parseKeyValueOfConfig, hkv, if_false,
        parseLevelKey_other_key group key value h2 h3 _ h1]
    · obtain ⟨h1, h2⟩ := h
      subst h1
      simp only [basicKeys, List.mem_cons, List.mem_singleton, not_or, List.not_mem_nil,
        or_false] at h2
      obtain ⟨k1, k2, k3, k4, k5, k6⟩ := h2
      simp only [parseKeyValueOfConfig, hkv, if_false, parseLevelKey_none _ key value _ hbasic,
        if_true, k1, k2, k3, k4, k5, k6]
    · obtain ⟨h1, hbad⟩ := h
      have hpc : ∀ c : Color, parseColor value c = (false, c) := by
        intro c
        rcases hbad with hbad | hbad
        · exact parseColor_of_channelOutOfRange value c hbad
        · exact parseColor_no_fields value c hbad
      rcases h1 with ⟨h1, h2⟩ | ⟨h1, h2⟩
      · subst h2
        rw [← hnames] at h1
        simp only [parseKeyValueOfConfig, hkv, if_false,
          parseLevelKey_bad_color group value hpc _ h1]
      · subst h1; subst h2
        have e1 : ¬ ("line_number_color".toList = "line_max_length".toList) := by decide
        have e2 : ¬ ("line_number_color".toList = "lines_of_last".toList) := by decide
        have e3 : ¬ ("line_number_color".toList = "detect_interval".toList) := by decide
        have e4 : ¬ ("line_number_color".toList = "highlight_line".toList) := by decide
        have e5 : ¬ ("line_number_color".toList = "show_line_number".toList) := by decide
        simp only [parseKeyValueOfConfig, hkv, if_false,
          parseLevelKey_none _ _ value _ hbasic, if_true, e1, e2, e3, e4, e5,
          hpc cfg.lineNumberColor]

/-- Witness of C14: an unknown group, an unknown key of `basic` and a colour
with the channel 300, each on the default configuration. -/
theorem parseKeyValueOfConfig_rejects_witness :
    defaultConfig.levels.map (·.groupName) = levelNames
    ∧ ChannelOutOfRange "1,2,300".toList
    ∧ parseKeyValueOfConfig defaultConfig "fatal".toList "text".toList "[fatal]".toList
        = (false, defaultConfig)
    ∧ parseKeyValueOfConfig defaultConfig "basic".toList "colour".toList "1".toList
        = (false, defaultConfig)
    ∧ parseKeyValueOfConfig defaultConfig "error".toList "color".toList "1,2,300".toList
        = (false, defaultConfig) :=
  ⟨by decide,
   ⟨"1".toList, "2".toList, "300".toList, ⟨by decide, by decide, by decide⟩, by decide⟩,
   parseKeyValueOfConfig_rejects defaultConfig "fatal".toList "text".toList "[fatal]".toList
     (by decide) (Or.inr (Or.inr (Or.inl ⟨by decide, by decide⟩))),
   parseKeyValueOfConfig_rejects defaultConfig "basic".toList "colour".toList "1".toList
     (by decide) (Or.inr (Or.inr (Or.inr (Or.inr (Or.inl ⟨by decide, by decide⟩))))),
   parseKeyValueOfConfig_rejects defaultConfig "error".toList "color".toList "1,2,300".toList
     (by decide)
     (Or.inr (Or.inr (Or.inr (Or.inr (Or.inr
       ⟨Or.inl ⟨by decide, by decide⟩,
        Or.inl ⟨"1".toList, "2".toList, "300".toList, ⟨by decide, by decide, by decide⟩,
          by decide⟩⟩)))))⟩

theorem parseLevelKey_inv (group key value : List Char) (hv : value ≠ []) :
    ∀ (levels levels2 : List Level) (flag : Bool),
      (∀ l ∈ levels, l.WellFormed) →
      parseLevelKey group key value levels = some (flag, levels2) →
      levels2.map (·.groupName) = levels.map (·.groupName) ∧ ∀ l ∈ levels2, l.WellFormed := by
  intro levels
  induction levels with
  | nil => intro levels2 flag _ h; simp [parseLevelKey] at h
  | cons l ls ih =>
    intro levels2 flag hwf h
    have hl : l.WellFormed := hwf l (by simp)
    have hls : ∀ x ∈ ls, x.WellFormed := fun x hx => hwf x (List.mem_cons_of_mem _ hx)
    simp only [parseLevelKey] at h
    by_cases hg : group = l.groupName
    · simp only [hg, if_true] at h
      by_cases hc : key = "color".toList
      · simp only [hc, if_true, Option.some.injEq, Prod.mk.injEq] at h
        obtain ⟨_, h2⟩ := h
        subst h2
        refine ⟨by simp, ?_⟩
        intro x hx
        rcases List.mem_cons.mp hx with hx | hx
        · subst hx
          obtain ⟨hm, h1, h2, h3, h4, h5, h6⟩ := hl
          have hb := parseColor_inByte value l.color ⟨⟨h1, h2⟩, ⟨h3, h4⟩, ⟨h5, h6⟩⟩
          exact ⟨hm, hb.1.1, hb.1.2, hb.2.1.1, hb.2.1.2, hb.2.2.1, hb.2.2.2⟩
        · exact hls x hx
      · simp only [hc, if_false] at h
        by_cases ht : key = "text".toList
        · simp only [ht, if_true, Option.some.injEq, Prod.mk.injEq] at h
          obtain ⟨_, h2⟩ := h
          subst h2
          refine ⟨by simp, ?_⟩
          intro x hx
          rcases List.mem_cons.mp hx with hx | hx
          · subst hx
            obtain ⟨_, hrest⟩ := hl
            exact ⟨hv, hrest⟩
          · exact hls x hx
        · simp only [ht, if_false, Option.some.injEq, Prod.mk.injEq] at h
          obtain ⟨_, h2⟩ := h
          subst h2
          exact ⟨rfl, hwf⟩
    · simp only [hg, if_false] at h
      cases hr : parseLevelKey group key value ls with
      | none => simp [hr] at h
      | some r =>
        obtain ⟨f2, ls2⟩ := r
        simp only [hr, Option.some.injEq, Prod.mk.injEq] at h
        obtain ⟨_, h2⟩ := h
        subst h2
        obtain ⟨i1, i2⟩ := ih ls2 f2 hls hr
        refine ⟨by simp [i1], ?_⟩
        intro x hx
        rcases List.mem_cons.mp hx with hx | hx
        · subst hx; exact hl
        · exact i2 x hx

theorem parseKeyValueOfConfig_inv (cfg : Config) (group key value : List Char)
    (h : ConfigInv cfg) : ConfigInv (parseKeyValueOfConfig cfg group key value).2 := by
  obtain ⟨hn, hw, hr, hg, hb⟩ := h
  unfold parseKeyValueOfConfig
  by_cases hkv : key = [] ∨ value = []
  · simp only [hkv, if_true]; exact ⟨hn, hw, hr, hg, hb⟩
  · have hv : value ≠ [] := fun e => hkv (Or.inr e)
    simp only [hkv, if_false]
    cases hp : parseLevelKey group key value cfg.levels with
    | some r =>
      obtain ⟨flag, levels2⟩ := r
      obtain ⟨i1, i2⟩ := parseLevelKey_inv group key value hv cfg.levels levels2 flag hw hp
      exact ⟨by simpa [i1] using hn, i2, hr, hg, hb⟩
    | none =>
      simp only []
      have hcl := parseColor_inByte value cfg.lineNumberColor ⟨hr, hg, hb⟩
      split_ifs <;> first
        | exact ⟨hn, hw, hr, hg, hb⟩
        | exact ⟨hn, hw, hcl.1, hcl.2.1, hcl.2.2⟩

theorem applyCalls_inv : ∀ (calls : List (List Char × List Char × List Char)) (cfg : Config),
    ConfigInv cfg → ConfigInv (applyCalls cfg calls) := by
  intro calls
  induction calls with
  | nil => intro cfg h; exact h
  | cons c cs ih =>
    intro cfg h
    obtain ⟨group, key, value⟩ := c
    exact ih _ (parseKeyValueOfConfig_inv cfg group key value h)

/-- C17: after any sequence of calls of `parseKeyValueOfConfig` on the default
configuration, whether the calls return `true` or `false`, the table has
exactly six rules, named trace, debug, info, warning, error, critical in this
order, no marker is empty, and every channel of every level colour and of
`lineNumberColor` lies in `[0,255]`. -/
theorem config_invariant_preserved (calls : List (List Char × List Char × List Char)) :
    (applyCalls defaultConfig calls).levels.length = 6
    ∧ (applyCalls defaultConfig calls).levels.map (·.groupName)
        = ["trace".toList, "debug".toList, "info".toList, "warning".toList, "error".toList,
            "critical".toList]
    ∧ (∀ l ∈ (applyCalls defaultConfig calls).levels,
        l.textInLogFile ≠ [] ∧ InByte l.color.r ∧ InByte l.color.g ∧ InByte l.color.b)
    ∧ InByte (applyCalls defaultConfig calls).lineNumberColor.r
    ∧ InByte (applyCalls defaultConfig calls).lineNumberColor.g
    ∧ InByte (applyCalls defaultConfig calls).lineNumberColor.b := by
  have h0 : ConfigInv defaultConfig := by
    refine ⟨by decide, by decide, by decide, by decide, by decide⟩
  obtain ⟨hn, hw, hr, hg, hb⟩ := applyCalls_inv calls defaultConfig h0
  refine ⟨?_, hn, ?_, hr, hg, hb⟩
  · have := congrArg List.length hn
    simpa [levelNames] using this
  · intro l hl
    obtain ⟨hm, h1, h2, h3, h4, h5, h6⟩ := hw l hl
    exact ⟨hm, ⟨h1, h2⟩, ⟨h3, h4⟩, ⟨h5, h6⟩⟩

/-! ## The writes of `printColorfulLine` into `lineBuff` -/

/-- C16: for every line, either mode and every table whose colour channels lie
in `[0,255]` and whose markers contain no `'\n'` or `'\r'`, with `len` the
length of the line without its trailing terminators: every count passed to
`strncpy` is non-negative, and the bytes written into `lineBuff`, the closing
NUL included, are at most `len + 24`, hence within the `len + 40` allocated.
`len` is the value the trimming loop ends with whenever it ends. -/
theorem lineBuff_writes_bounded (cfg : Config) (line : List Char)
    (hcol : ∀ l ∈ cfg.levels, InByte l.color.r ∧ InByte l.color.g ∧ InByte l.color.b)
    (hmark : ∀ l ∈ cfg.levels, ∀ c ∈ l.textInLogFile, isTerm c = false) :
    (∀ n ∈ strncpyCounts cfg line (rstrip line).length, 0 ≤ n)
    ∧ (∃ t, lineBuffOf cfg line (rstrip line).length = some t
        ∧ t.length + 1 ≤ (rstrip line).length + 24
        ∧ t.length + 1 ≤ (rstrip line).length + 40)
    ∧ (∀ len, trimLen line line.length = some len → len = (rstrip line).length) := by
  have hlen : (rstrip line).length ≤ line.length := (List.rdropWhile_prefix isTerm line).length_le
  refine ⟨?_, ?_, ?_⟩
  · intro n hn
    unfold strncpyCounts at hn
    cases hf : findLevel cfg.levels line with
    | none =>
      simp only [hf, List.mem_singleton] at hn
      omega
    | some r =>
      obtain ⟨level, pos⟩ := r
      obtain ⟨hmem, hs⟩ := findLevel_some_spec line cfg.levels level pos hf
      have hin := marker_inside_trimmed line level.textInLogFile pos
        (strstr_firstOcc _ _ _ hs) (hmark level hmem)
      simp only [hf] at hn
      by_cases hmode : cfg.highlightLine = true
      · simp only [hmode, if_true, List.mem_singleton] at hn
        omega
      · simp only [hmode, Bool.false_eq_true, if_false, List.mem_cons, List.mem_singleton,
          List.not_mem_nil, or_false] at hn
        rcases hn with h | h | h <;> omega
  · unfold lineBuffOf
    cases hf : findLevel cfg.levels line with
    | none =>
      refine ⟨rstrip line, ?_, by omega, by omega⟩
      simp only [take_rstrip]
      rw [if_pos (by omega)]
    | some r =>
      obtain ⟨level, pos⟩ := r
      obtain ⟨hmem, hs⟩ := findLevel_some_spec line cfg.levels level pos hf
      have hin := marker_inside_trimmed line level.textInLogFile pos
        (strstr_firstOcc _ _ _ hs) (hmark level hmem)
      obtain ⟨hr, hg, hb⟩ := hcol level hmem
      have hc := colorStart_length level.color hr hg hb
      by_cases hmode : cfg.highlightLine = true
      · refine ⟨colorStart level.color ++ rstrip line ++ colorReset, ?_, ?_, ?_⟩
        · simp only [hmode, if_true, take_rstrip]
          rw [if_pos (by simp only [List.length_append, colorReset_length]; omega)]
        · simp only [List.length_append, colorReset_length]; omega
        · simp only [List.length_append, colorReset_length]; omega
      · have hnlt : ¬ (rstrip line).length < pos + level.textInLogFile.length := by omega
        have htl : (line.take pos ++ colorStart level.color ++ level.textInLogFile ++ colorReset
            ++ (line.drop (pos + level.textInLogFile.length)).take
                ((rstrip line).length - (pos + level.textInLogFile.length))).length
            = (rstrip line).length + (colorStart level.color).length + 4 := by
          simp only [List.length_append, colorReset_length, List.length_take,
            List.length_drop]
          omega
        refine ⟨_, ?_, by rw [htl]; omega, by rw [htl]; omega⟩
        simp only [hmode, Bool.false_eq_true, if_false, hnlt]
        rw [if_pos (by rw [htl]; omega)]
  · intro len h
    rw [trimLen_eq] at h
    by_cases hne : rstrip line = []
    · simp [hne] at h
    · simp only [hne, if_false, Option.some.injEq] at h
      exact h.symm

/-- Witness of C16: the default table and a line with the marker of the widest
colour escape, ending in `\r\n`: 14 characters after trimming, 36 characters
and the NUL written. -/
theorem lineBuff_writes_bounded_witness :
    (∀ l ∈ defaultConfig.levels, InByte l.color.r ∧ InByte l.color.g ∧ InByte l.color.b)
    ∧ (∀ l ∈ defaultConfig.levels, ∀ c ∈ l.textInLogFile, isTerm c = false)
    ∧ ((∀ n ∈ strncpyCounts defaultConfig "x [critical] y\r\n".toList
            (rstrip "x [critical] y\r\n".toList).length, 0 ≤ n)
      ∧ (∃ t, lineBuffOf defaultConfig "x [critical] y\r\n".toList
            (rstrip "x [critical] y\r\n".toList).length = some t
          ∧ t.length + 1 ≤ (rstrip "x [critical] y\r\n".toList).length + 24
          ∧ t.length + 1 ≤ (rstrip "x [critical] y\r\n".toList).length + 40)
      ∧ (∀ len, trimLen "x [critical] y\r\n".toList "x [critical] y\r\n".toList.length
            = some len → len = (rstrip "x [critical] y\r\n".toList).length))
    ∧ strncpyCounts defaultConfig "x [critical] y\r\n".toList 14 = [2, 10, 2]
    ∧ (lineBuffOf defaultConfig "x [critical] y\r\n".toList 14).map List.length = some 36 :=
  ⟨by decide, by decide,
   lineBuff_writes_bounded defaultConfig "x [critical] y\r\n".toList (by decide) (by decide),
   by decide, by decide⟩

/-! ## `replaceAll` ends -/

theorem sfind_zero (s needle : List Char) : sfind s needle 0 = strstr s needle := by
  simp [sfind]

theorem strstr_some_length (needle : List Char) (s : List Char) (pos : Nat)
    (h : strstr s needle = some pos) : pos + needle.length ≤ s.length := by
  obtain ⟨⟨t, ht⟩, _⟩ := strstr_firstOcc needle s pos h
  have h1 := congrArg List.length ht
  simp only [List.length_append, List.length_drop] at h1
  by_cases hn : needle.length = 0
  · have hp : pos = 0 := by
      by_contra hpos
      have hnil : needle = [] := List.length_eq_zero.mp hn
      exact (strstr_firstOcc needle s pos h).2 0 (by omega) (by simp [hnil])
    omega
  · omega

/-- Replacing `<space>` by a blank shortens the string, so the loop of
`replaceAll` ends within as many rounds as the string has characters. -/
theorem replaceAllLoop_space_isSome : ∀ (fuel : Nat) (str : List Char), str.length < fuel →
    (replaceAllLoop "<space>".toList " ".toList fuel str).isSome = true := by
  intro fuel
  induction fuel with
  | zero => intro str h; omega
  | succ fuel ih =>
    intro str hlen
    simp only [replaceAllLoop, sfind_zero]
    cases hs : strstr str "<space>".toList with
    | none => rfl
    | some pos =>
      have hl := strstr_some_length _ str pos hs
      have h7 : "<space>".toList.length = 7 := by decide
      have h1 : " ".toList.length = 1 := by decide
      rw [h7] at hl
      simp only []
      apply ih
      simp only [List.length_append, List.length_take, List.length_drop, h7, h1]
      omega

theorem replaceAll_space_isSome (str : List Char) :
    (replaceAll str "<space>".toList " ".toList).isSome = true :=
  replaceAllLoop_space_isSome _ str (by omega)

theorem parseGroup_isSome : ∀ (lines : List (List Char)) (cfg : Config) (group : List Char),
    (parseGroup cfg group lines).isSome = true := by
  intro lines
  induction lines with
  | nil => intro cfg group; rfl
  | cons raw rest ih =>
    intro cfg group
    simp only [parseGroup]
    split_ifs
    · exact ih _ _
    · rfl
    · exact ih _ _
    · cases hs : sfind (trim raw) ['='] 0 with
      | none => rfl
      | some pos =>
        simp only []
        cases hr : replaceAll (trim (List.drop (pos + 1) (trim raw))) "<space>".toList
            " ".toList with
        | none =>
          have ht : (replaceAll (trim (List.drop (pos + 1) (trim raw))) "<space>".toList
              " ".toList).isSome = true := replaceAll_space_isSome _
          rw [hr] at ht
          exact absurd ht (by simp)
        | some value =>
          simp only []
          split_ifs
          · rfl
          · exact ih _ _
          · rfl

/-- The function `readConfig` returns on every file. -/
theorem readConfig_isSome (cfg : Config) (file : Option (List Char)) :
    (readConfig cfg file).isSome = true := by
  cases file with
  | none => rfl
  | some content =>
    simp only [readConfig]
    generalize getlines content = lines
    induction lines generalizing cfg with
    | nil => rfl
    | cons raw rest ih =>
      simp only [readConfigLoop]
      split_ifs
      · exact ih _
      · rfl
      · exact parseGroup_isSome _ _ _

end Logview
